import Mathlib

set_option autoImplicit false

namespace Trollimage

/-!
Shallow embedding of `trollimage/image.py`.

Channel values are modelled as exact rationals (the source stores floating
point values; every claim settled here is either exact arithmetic on the
stated inputs or is explicitly about exact values).  A masked array is a list
of pixels, each pixel carrying its data value and its validity mask flag
(mask = true means the value is missing), the 2-D grid being flattened in
row-major order.  Operations that can raise in Python return `Except String`.
-/

/-- Color modes, the `Image.modes` list of the source:
L, LA, RGB, RGBA, YCbCr, YCbCrA, P, PA. -/
inductive Mode where
  | L | LA | RGB | RGBA | YCbCr | YCbCrA | P | PA
deriving DecidableEq

/-- Channel count a mode implies: the number of upper-case letters of the mode
string, `len(re.findall("[A-Z]", mode))` in the source ("YCbCr" has the three
upper-case letters Y, C, C). -/
def impliedChannels : Mode → Nat
  | .L => 1 | .LA => 2 | .RGB => 3 | .RGBA => 4
  | .YCbCr => 3 | .YCbCrA => 4 | .P => 1 | .PA => 2

/-- Whether the mode string ends with "A" (`self.mode.endswith("A")`). -/
def isAlpha : Mode → Bool
  | .LA | .RGBA | .YCbCrA | .PA => true
  | .L | .RGB | .YCbCr | .P => false

/-- Mode named by the string `mode + "A"`, when that string is itself one of
the valid modes (appending "A" to an alpha mode never yields a valid mode). -/
def addAlphaM : Mode → Option Mode
  | .L => some .LA | .RGB => some .RGBA | .YCbCr => some .YCbCrA | .P => some .PA
  | _ => none

/-- Mode named by the string `mode[:-1]` for the alpha modes; identity on the
others (the source only applies `[:-1]` to modes that end with "A"). -/
def baseMode : Mode → Mode
  | .LA => .L | .RGBA => .RGB | .YCbCrA => .YCbCr | .PA => .P
  | m => m

/-- Element of a masked array: data value plus validity mask flag
(mask = true means the pixel is missing there). -/
structure MPix where
  data : ℚ
  mask : Bool
deriving DecidableEq

/-- A masked channel: 2-D grid flattened in row-major order. -/
abbrev MChan := List MPix

/-- A palette entry: the tuple `tuple([chn[i, j] for chn in chans])` built by
`_to_p`.  Extracting an element of a masked array at a masked position yields
the `numpy.ma.masked` singleton rather than the stored data value, so one
palette component is either a concrete value or that singleton, modelled as
`Option ℚ` with `none` for the masked singleton.  Python tuple equality
compares componentwise with an identity shortcut, under which the masked
singleton equals itself and compares unequal (falsy) to any float, which is
exactly decidable equality of `Option ℚ`. -/
abbrev PColor := List (Option ℚ)

/-- The `Image` aggregate: mode tag, channel store, shape, optional fill
value, optional palette and the remembered secondary mode (`_secondary_mode`,
initialised to "RGB").  The `info` dictionary of the source is never read or
written by the operations under verification and is omitted. -/
structure QImage where
  mode : Mode
  channels : List MChan
  height : Nat
  width : Nat
  fillValue : Option (List ℚ)
  palette : Option (List PColor)
  secondaryMode : Mode
deriving DecidableEq

/-- Python list subscript `l[i]` for a non-negative index: raises IndexError
when out of range. -/
def pyGet {α : Type} (l : List α) (i : Nat) : Except String α :=
  match l.get? i with
  | some a => .ok a
  | none => .error "IndexError"

/-- Python list subscript `l[i]` for a possibly negative index
(negative indices count from the end). -/
def pyIntGet {α : Type} (l : List α) (i : ℤ) : Except String α :=
  if 0 ≤ i then pyGet l i.toNat
  else if (-i).toNat ≤ l.length then pyGet l (l.length - (-i).toNat)
  else .error "IndexError"

/-- Pixel of a channel at a flat position; theorems about channel contents
always carry the bound `p < length`, where this equals plain list indexing. -/
def chanGet (c : MChan) (p : Nat) : MPix := c.getD p ⟨0, false⟩

/-- Coefficient kb = 0.114 fixed in `rgb2ycbcr` and `ycbcr2rgb`. -/
def kb : ℚ := 114 / 1000

/-- Coefficient kr = 0.299 fixed in `rgb2ycbcr` and `ycbcr2rgb`. -/
def kr : ℚ := 299 / 1000

/-- Function `rgb2ycbcr` of the source, on one value per channel:
y = kr*r + (1-kr-kb)*g + kb*b, cb = 1/(2*(1-kb)) * (b-y),
cr = 1/(2*(1-kr)) * (r-y). -/
def rgb2ycbcrQ (r g b : ℚ) : ℚ × ℚ × ℚ :=
  let y := kr * r + (1 - kr - kb) * g + kb * b
  let cb := 1 / (2 * (1 - kb)) * (b - y)
  let cr := 1 / (2 * (1 - kr)) * (r - y)
  (y, cb, cr)

/-- Function `ycbcr2rgb` of the source, on one value per channel:
r = 2*cr/(1-kr) + y, b = 2*cb/(1-kb) + y,
g = (y - kr*r - kb*b)/(1 - kr - kb). -/
def ycbcr2rgbQ (y cb cr : ℚ) : ℚ × ℚ × ℚ :=
  let r := 2 * cr / (1 - kr) + y
  let b := 2 * cb / (1 - kb) + y
  let g := (y - kr * r - kb * b) / (1 - kr - kb)
  (r, g, b)

/-- Three-list pointwise zip, used for masked-array arithmetic over three
channels of equal shape. -/
def zip3With {α β γ δ : Type} (f : α → β → γ → δ) : List α → List β → List γ → List δ
  | a :: as, b :: bs, c :: cs => f a b c :: zip3With f as bs cs
  | _, _, _ => []

/-- Python `int()` of a rational: truncation toward zero. -/
def ratTruncZ (q : ℚ) : ℤ := if 0 ≤ q then ⌊q⌋ else ⌈q⌉

/-- Method `is_empty`: raises on a channels/shape mismatch, otherwise reports
whether the image is empty (no channels and shape (0, 0)). -/
def isEmptyChk (img : QImage) : Except String Bool :=
  let noCh : Bool := img.channels.isEmpty
  let zs : Bool := img.height == 0 && img.width == 0
  if noCh && !zs then .error "Channels-shape mismatch."
  else if !noCh && zs then .error "Channels-shape mismatch."
  else .ok (noCh && zs)

/-- Channel `np.ma.ones(shape)` appended by the add-alpha move: data all ones,
nothing masked. -/
def onesChan (n : Nat) : MChan := List.replicate n ⟨1, false⟩

/-- Mask disjunction built by `_to_p` and `merge`:
`selfmask = channels[0].mask` then `np.ma.mask_or` with each later channel's
mask, i.e. the pointwise OR of all the channel masks. -/
def selfmaskList : List MChan → List Bool
  | [] => []
  | c :: rest =>
    rest.foldl (fun acc ch => List.zipWith (· || ·) acc (ch.map MPix.mask)) (c.map MPix.mask)

/-- Tuple `tuple([chn[i, j] for chn in chans])` at one flat position: a masked
element extracts as the masked singleton, `none`. -/
def pixColor (chs : List MChan) (p : Nat) : PColor :=
  chs.map (fun c => if (chanGet c p).mask then none else some (chanGet c p).data)

/-- Index of the first palette entry equal to the given color, the lookup
`next(idx for idx in range(len(palette)) if palette[idx] == current_col)`
(`none` when the generator is exhausted). -/
def firstIdx (c : PColor) : List PColor → Option Nat
  | [] => none
  | e :: rest => if e = c then some 0 else (firstIdx c rest).map (· + 1)

/-- Pixel scan of `_to_p`: for each color in row-major order, test whether a
palette entry equals it.  The `next(idx for idx in ...)` call only decides
between hit and StopIteration: the generator expression has its own scope
and the call's result is discarded, so the function-level `idx` is assigned
only in the `except` branch (`idx = color_nb`, the current palette length,
then the color is appended).  On a hit the stale `idx` — the index of the
most recently appended palette entry — is what `new_chn[i, j] = idx` stores,
not the matching entry's index.  The fold threads that stale register `li`
and returns the grown palette, the final register and the stored indices in
scan order. -/
def toPFold (pal : List PColor) (li : Nat) : List PColor → (List PColor × Nat) × List Nat
  | [] => ((pal, li), [])
  | c :: cs =>
    match firstIdx c pal with
    | some _ =>
      let r := toPFold pal li cs
      (r.1, li :: r.2)
    | none =>
      let r := toPFold (pal ++ [c]) pal.length cs
      (r.1, pal.length :: r.2)

/-- Colors of the scanned channels in row-major order, the sequence of
tuples the pixel loop of `_to_p` visits. -/
def scanColors (chs : List MChan) (N : Nat) : List PColor :=
  (List.range N).map (pixColor chs)

/-- Result of the `_to_p` pixel scan started from the empty palette: the
final palette with the final stale-index register, and the indices stored in
scan order.  The initial register value is never read: a hit needs a
non-empty palette, so the first color always lands in the `except` branch
(matching `idx` being unbound before the loop in the source). -/
def toPScan (chs : List MChan) (N : Nat) : (List PColor × Nat) × List Nat :=
  toPFold [] 0 (scanColors chs N)

/-- The integer index channel `_to_p` builds: per pixel the assigned palette
index, the mask being the disjunction of the scanned channels' masks. -/
def toPChan (chs : List MChan) (N : Nat) : MChan :=
  (List.range N).map (fun p =>
    ⟨((toPScan chs N).2.getD p 0 : ℚ), (selfmaskList chs).getD p false⟩)

/-- Registration of the fill color by the pixel loop's rule: when no entry
matches, the color is appended and its fresh index stored; when an entry
matches, the `next(...)` result is again discarded and the stale `idx` left
over from the pixel loop (`li`) is stored instead of the matching entry's
index. -/
def fillRegister (pal : List PColor) (li : Nat) (fcol : PColor) : List PColor × Nat :=
  match firstIdx fcol pal with
  | some _ => (pal, li)
  | none => (pal ++ [fcol], pal.length)

/-- Method `_to_p`: convert the image to P or PA mode.  The alpha channel,
when present, is set aside and the source mode minus its alpha is remembered
as the secondary mode; the remaining channels are scanned pixel by pixel
building the palette and the integer index channel; the fill value, when
present, is registered in the palette by the same rule the pixel loop uses,
the stale index register included (its color omits the alpha entry, which is
carried over). -/
def toP (img : QImage) (m : Mode) : Except String QImage :=
  let asrc := isAlpha img.mode
  let chans := if asrc then img.channels.dropLast else img.channels
  let alphaCh := if asrc then img.channels.getLast? else none
  let sec := baseMode img.mode
  match chans with
  | [] => .error "IndexError"
  | _ :: _ =>
    let N := img.height * img.width
    (match img.fillValue with
     | none => .ok ((toPScan chans N).1.1, none)
     | some f =>
       (if asrc then (pyIntGet f (-1)).map (fun a => (f.dropLast.map some, [a]))
        else .ok (f.map some, ([] : List ℚ))) >>= fun fc =>
       let reg := fillRegister (toPScan chans N).1.1 (toPScan chans N).1.2 fc.1
       .ok (reg.1, some ((reg.2 : ℚ) :: fc.2)))
    >>= fun pr =>
    .ok { img with
          mode := m
          channels := [toPChan chans N] ++ (match alphaCh with | some a => [a] | none => [])
          fillValue := pr.2
          palette := some pr.1
          secondaryMode := sec }

/-- Evaluation of `np.interp(x, np.arange(n), fp)` with `n = fp.length`:
values at or below the first knot give fp[0], values at or above the last
give fp[n-1], and a value strictly between two integer knots interpolates
linearly between them. -/
def npInterpArange (fp : List ℚ) (x : ℚ) : ℚ :=
  if x ≤ 0 then fp.headD 0
  else if (fp.length : ℚ) - 1 ≤ x then fp.getLastD 0
  else
    let k := (⌊x⌋).toNat
    fp.getD k 0 + (x - (k : ℚ)) * (fp.getD (k + 1) 0 - fp.getD k 0)

/-- The cdf column i of `_from_p`: the i-th component of every palette
entry, a masked singleton landing as its numeric payload, zero. -/
def fromPCdf (pal : List PColor) (i : Nat) : List ℚ :=
  pal.map (fun col => (col.getD i none).getD 0)

/-- The direct channels `_from_p` builds: one channel per component of the
first palette entry, each pixel interpolating its index against the cdf
column, the mask copied from the index channel. -/
def fromPChans (pal : List PColor) (colorChan : MChan) : List MChan :=
  (List.range (pal.headD []).length).map (fun i =>
    colorChan.map (fun px => ⟨npInterpArange (fromPCdf pal i) px.data, px.mask⟩))

/-- Method `_from_p`: convert the image from P or PA mode.  Each output
channel interpolates one palette column against the index channel
(`np.interp(color_chan, np.arange(len(palette)), cdfs[i])`); the mask is
copied from the index channel; the fill value, when present, is replaced by
the palette entry it indexes (truncated to int, Python negative indices
counting from the end); finally the image, now tagged with the remembered
secondary mode plus alpha if an alpha channel was set aside, is converted to
the requested mode by the given continuation (the recursive `self.convert`).
A palette component holding the masked singleton lands in the float cdf array
as its numeric payload, zero; a source palette entry shorter than the first
one raises IndexError at `palette[j][i]`, checked up front here. -/
def fromPAux (conv : QImage → Mode → Except String QImage) (img : QImage) (m : Mode) :
    Except String QImage :=
  if ¬(img.mode = .P ∨ img.mode = .PA) then .error "Image not in suitable mode"
  else
    (if isAlpha img.mode then (pyIntGet img.channels (-1)).map some
     else .ok none) >>= fun alphaCh =>
    pyGet img.channels 0 >>= fun colorChan =>
    (match img.palette with
     | none => .error "TypeError"
     | some pal => .ok pal) >>= fun pal =>
    pyGet pal 0 >>= fun p0 =>
    if pal.any (fun col => decide (col.length < p0.length)) then .error "IndexError"
    else
      let chans : List MChan := fromPChans pal colorChan
      (match img.fillValue, alphaCh with
       | some f, some _ =>
         pyIntGet f (-1) >>= fun fa =>
         pyGet f 0 >>= fun f0 =>
         (pyIntGet pal (ratTruncZ f0)).map (fun ent => some (ent.map (fun o => o.getD 0) ++ [fa]))
       | some f, none =>
         pyGet f 0 >>= fun f0 =>
         (pyIntGet pal (ratTruncZ f0)).map (fun ent => some (ent.map (fun o => o.getD 0)))
       | none, _ => .ok img.fillValue) >>= fun fill2 =>
      (match alphaCh with
       | some a =>
         match addAlphaM img.secondaryMode with
         | some ma => .ok (ma, [a])
         | none => .error "Conversion not implemented"
       | none => .ok (img.secondaryMode, ([] : List MChan))) >>= fun md =>
      conv { img with mode := md.1, channels := chans ++ md.2, fillValue := fill2 } m

/-- Method `_rgb2ycbcr`: replace the first three channels by the `rgb2ycbcr`
images of their data; numpy masked arithmetic makes each derived channel's
mask the union of the masks of the channels its formula reads, here all three
for each of y, cb and cr.  The first three fill value entries are mapped the
same way. -/
def rgb2ycbcrIm (img : QImage) (m : Mode) : Except String QImage :=
  if ¬(img.mode = .RGB ∨ img.mode = .RGBA) then .error "Image not in suitable mode"
  else match img.channels with
  | c0 :: c1 :: c2 :: rest =>
    let y := zip3With (fun r g b =>
      (⟨(rgb2ycbcrQ r.data g.data b.data).1, r.mask || g.mask || b.mask⟩ : MPix)) c0 c1 c2
    let cb := zip3With (fun r g b =>
      (⟨(rgb2ycbcrQ r.data g.data b.data).2.1, r.mask || g.mask || b.mask⟩ : MPix)) c0 c1 c2
    let cr := zip3With (fun r g b =>
      (⟨(rgb2ycbcrQ r.data g.data b.data).2.2, r.mask || g.mask || b.mask⟩ : MPix)) c0 c1 c2
    let fillComp : Except String (Option (List ℚ)) :=
      match img.fillValue with
      | none => .ok none
      | some f =>
        pyGet f 0 >>= fun f0 => pyGet f 1 >>= fun f1 => pyGet f 2 >>= fun f2 =>
        let t := rgb2ycbcrQ f0 f1 f2
        .ok (some ([t.1, t.2.1, t.2.2] ++ f.drop 3))
    fillComp.map (fun fill2 =>
      { img with mode := m, channels := y :: cb :: cr :: rest, fillValue := fill2 })
  | _ => .error "IndexError"

/-- Method `_ycbcr2rgb`: replace the first three channels by the `ycbcr2rgb`
images of their data; the derived r channel reads y and cr, the derived b
channel reads y and cb, and the derived g channel reads all three, so their
masks are the corresponding unions. -/
def ycbcr2rgbIm (img : QImage) (m : Mode) : Except String QImage :=
  if ¬(img.mode = .YCbCr ∨ img.mode = .YCbCrA) then .error "Image not in suitable mode"
  else match img.channels with
  | c0 :: c1 :: c2 :: rest =>
    let r := zip3With (fun y cb cr =>
      (⟨(ycbcr2rgbQ y.data cb.data cr.data).1, y.mask || cr.mask⟩ : MPix)) c0 c1 c2
    let g := zip3With (fun y cb cr =>
      (⟨(ycbcr2rgbQ y.data cb.data cr.data).2.1, y.mask || cb.mask || cr.mask⟩ : MPix)) c0 c1 c2
    let b := zip3With (fun y cb cr =>
      (⟨(ycbcr2rgbQ y.data cb.data cr.data).2.2, y.mask || cb.mask⟩ : MPix)) c0 c1 c2
    let fillComp : Except String (Option (List ℚ)) :=
      match img.fillValue with
      | none => .ok none
      | some f =>
        pyGet f 0 >>= fun f0 => pyGet f 1 >>= fun f1 => pyGet f 2 >>= fun f2 =>
        let t := ycbcr2rgbQ f0 f1 f2
        .ok (some ([t.1, t.2.1, t.2.2] ++ f.drop 3))
    fillComp.map (fun fill2 =>
      { img with mode := m, channels := r :: g :: b :: rest, fillValue := fill2 })
  | _ => .error "IndexError"

/-- Method `_rgb2l`: channels become `[y] + channels[3:]` with y the luminance
formula of `rgb2ycbcr`; the fill value keeps the y entry of its converted
triple plus its tail from index 3 on. -/
def rgb2lIm (img : QImage) (m : Mode) : Except String QImage :=
  if ¬(img.mode = .RGB ∨ img.mode = .RGBA) then .error "Image not in suitable mode"
  else match img.channels with
  | c0 :: c1 :: c2 :: rest =>
    let y := zip3With (fun r g b =>
      (⟨kr * r.data + (1 - kr - kb) * g.data + kb * b.data,
        r.mask || g.mask || b.mask⟩ : MPix)) c0 c1 c2
    let fillComp : Except String (Option (List ℚ)) :=
      match img.fillValue with
      | none => .ok none
      | some f =>
        pyGet f 0 >>= fun f0 => pyGet f 1 >>= fun f1 => pyGet f 2 >>= fun f2 =>
        .ok (some ([(rgb2ycbcrQ f0 f1 f2).1] ++ f.drop 3))
    fillComp.map (fun fill2 =>
      { img with mode := m, channels := [y] ++ rest, fillValue := fill2 })
  | _ => .error "IndexError"

/-- Method `_ycbcr2l`: keep channel 0 and channels from index 3 on; same for
the fill value. -/
def ycbcr2lIm (img : QImage) (m : Mode) : Except String QImage :=
  if ¬(img.mode = .YCbCr ∨ img.mode = .YCbCrA) then .error "Image not in suitable mode"
  else match img.channels with
  | c0 :: _ =>
    let fillComp : Except String (Option (List ℚ)) :=
      match img.fillValue with
      | none => .ok none
      | some f => (pyGet f 0).map (fun f0 => some ([f0] ++ f.drop 3))
    fillComp.map (fun fill2 =>
      { img with
          mode := m
          channels := [c0] ++ img.channels.drop 3
          fillValue := fill2 })
  | _ => .error "IndexError"

/-- Method `_l2ycbcr`: channels become `[luma, zeros, zeros] + channels[1:]`
where the zero channels copy the luminance mask; the fill value becomes
`[fill[0], 0, 0] + fill[1:]`. -/
def l2ycbcrIm (img : QImage) (m : Mode) : Except String QImage :=
  if ¬(img.mode = .L ∨ img.mode = .LA) then .error "Image not in suitable mode"
  else match img.channels with
  | c0 :: _ =>
    let zeros : MChan := c0.map (fun px => ⟨0, px.mask⟩)
    let fillComp : Except String (Option (List ℚ)) :=
      match img.fillValue with
      | none => .ok none
      | some f => (pyGet f 0).map (fun f0 => some ([f0, 0, 0] ++ f.drop 1))
    fillComp.map (fun fill2 =>
      { img with
          mode := m
          channels := [c0, zeros, zeros] ++ img.channels.drop 1
          fillValue := fill2 })
  | _ => .error "IndexError"

/-- Method `_l2rgb`: append two copies of channel 0; in LA mode, swap
channels 1 and 3 so the alpha channel ends up last; the fill value becomes
`fill[:1] * 3 + fill[1:]`. -/
def l2rgbIm (img : QImage) (m : Mode) : Except String QImage :=
  if ¬(img.mode = .L ∨ img.mode = .LA) then .error "Image not in suitable mode"
  else match img.channels with
  | c0 :: _ =>
    let cs1 := img.channels ++ [c0, c0]
    (if img.mode = .LA then
       pyGet cs1 1 >>= fun a => pyGet cs1 3 >>= fun b => .ok ((cs1.set 1 b).set 3 a)
     else .ok cs1) >>= fun cs2 =>
    .ok { img with
            mode := m
            channels := cs2
            fillValue := img.fillValue.map
              (fun f => f.take 1 ++ f.take 1 ++ f.take 1 ++ f.drop 1) }
  | _ => .error "IndexError"

/-- The fixed transition table of `convert` (`cases` in the source), keyed by
the pair of the current mode and the target; the continuation is the
recursive `self.convert` that `_from_p` calls at its end.  Any pair absent
from the source's nested mapping raises the unsupported-conversion error. -/
def tableDispatch (conv : QImage → Mode → Except String QImage) (img : QImage)
    (m : Mode) : Except String QImage :=
  match img.mode, m with
  | .RGB, .YCbCr => rgb2ycbcrIm img m
  | .RGB, .L => rgb2lIm img m
  | .RGB, .P => toP img m
  | .RGBA, .YCbCrA => rgb2ycbcrIm img m
  | .RGBA, .LA => rgb2lIm img m
  | .RGBA, .PA => toP img m
  | .YCbCr, .RGB => ycbcr2rgbIm img m
  | .YCbCr, .L => ycbcr2lIm img m
  | .YCbCr, .P => toP img m
  | .YCbCrA, .RGBA => ycbcr2rgbIm img m
  | .YCbCrA, .LA => ycbcr2lIm img m
  | .YCbCrA, .PA => toP img m
  | .L, .RGB => l2rgbIm img m
  | .L, .YCbCr => l2ycbcrIm img m
  | .L, .P => toP img m
  | .LA, .RGBA => l2rgbIm img m
  | .LA, .YCbCrA => l2ycbcrIm img m
  | .LA, .PA => toP img m
  | .P, _ => fromPAux conv img m
  | .PA, _ => fromPAux conv img m
  | _, _ => .error "Conversion not implemented"

/-- One step of `convert`, its recursive calls abstracted into the
continuation.  The moves are tried in source order: no-op, empty image (mode
tag only), add alpha, drop alpha, indirect via alpha in both directions,
then the fixed transition table. -/
def convertBody (conv : QImage → Mode → Except String QImage) (img : QImage)
    (m : Mode) : Except String QImage :=
  if m = img.mode then .ok img
  else
    isEmptyChk img >>= fun e =>
    if e then .ok { img with mode := m }
    else if some m = addAlphaM img.mode then
      match img.channels with
      | [] => .error "IndexError"
      | c :: _ =>
        .ok { img with
                mode := m
                channels := img.channels ++ [onesChan c.length]
                fillValue := img.fillValue.map (fun f => f ++ [1]) }
    else if addAlphaM m = some img.mode then
      .ok { img with
              mode := m
              channels := img.channels.dropLast
              fillValue := img.fillValue.map (fun f => f.dropLast) }
    else if isAlpha m && !isAlpha img.mode then
      match addAlphaM img.mode with
      | some ma => conv img ma >>= fun i1 => conv i1 m
      | none => .error "Conversion not implemented"
    else if isAlpha img.mode && !isAlpha m then
      conv img (baseMode img.mode) >>= fun i1 => conv i1 m
    else tableDispatch conv img m

/-- Method `convert`, with explicit recursion fuel (the source recursion
nests at most a handful of calls; theorems below apply a fuel large enough
that exhaustion never occurs). -/
def convertF : Nat → QImage → Mode → Except String QImage
  | 0, _, _ => .error "fuel exhausted"
  | fuel + 1, img, m => convertBody (convertF fuel) img m

/-- Method `convert` with fuel that the source's bounded recursion never
exceeds. -/
def convert (img : QImage) (m : Mode) : Except String QImage := convertF 10 img m

/-- Pixel combination of `merge`: value from the background where selfmask is
set, new mask = selfmask AND the background mask. -/
def mergePix (sm : Bool) (sp op : MPix) : MPix :=
  ⟨if sm then op.data else sp.data, sm && op.mask⟩

/-- Method `merge`: use the provided image as background where the current
image has missing data.  Requires a non-empty image of the same mode;
`selfmask` is the disjunction (`np.ma.mask_or`) of all of self's channel
masks; each channel takes the background value where selfmask is set and its
new mask is selfmask AND the background channel's mask. -/
def merge (self other : QImage) : Except String QImage :=
  isEmptyChk self >>= fun e =>
  if e then .error "Cannot merge an empty image."
  else if self.mode ≠ other.mode then .error "Cannot merge image of different modes."
  else if other.channels.length < self.channels.length then .error "IndexError"
  else
    let sm := selfmaskList self.channels
    .ok { self with
          channels := List.zipWith (fun sc oc => zip3With mergePix sm sc oc)
            self.channels other.channels }

/-- Clip `data.clip(0, 1)` on one value. -/
def qclip (q : ℚ) : ℚ := min (max q 0) 1

/-- Rounding `np.round` on a value of the form produced by `_finalize`:
round half to even. -/
def ratRoundHE (q : ℚ) : ℤ :=
  let f := ⌊q⌋
  let r := q - (f : ℚ)
  if r < 1 / 2 then f
  else if 1 / 2 < r then f + 1
  else if f % 2 = 0 then f else f + 1

/-- One finalized pixel: data clipped to [0,1], scaled by 255
(`np.iinfo(uint8).max`) and rounded; mask carried over unchanged. -/
def finalizePix (px : MPix) : ℤ × Bool := (ratRoundHE (qclip px.data * 255), px.mask)

/-- Method `_finalize` with the default uint8 dtype: P and PA images are
first converted in place to RGB and RGBA; every channel value is clipped,
scaled and rounded with the mask kept; the fill value, when present, maps
entrywise through `int(col * 255)` — truncation toward zero with no
clipping.  Returns the image object as the call leaves it together with the
output channels and output fill value. -/
def finalize (img : QImage) :
    Except String (QImage × List (List (ℤ × Bool)) × Option (List ℤ)) :=
  (if img.mode = .P then convert img .RGB
   else if img.mode = .PA then convert img .RGBA
   else .ok img) >>= fun img1 =>
  .ok (img1, img1.channels.map (fun c => c.map finalizePix),
       img1.fillValue.map (fun f => f.map (fun col => ratTruncZ (col * 255))))

/-- Constructor argument `channels`: absent, a single 2-D array, or a
sequence of per-channel 2-D arrays, each carried with its shape. -/
inductive InitChannels where
  | noChannels
  | single (h w : Nat) (c : MChan)
  | seq (arrs : List (Nat × Nat × MChan))

/-- Constructor `Image.__init__`, restricted to the default color range
(`color_range` None scales each value by (x - 0.0) / (1.0 - 0.0), leaving the
data unchanged) and to 2-D inputs.  A list of channels must match the number
of upper-case letters of the mode and all share one shape; a single array is
added as one channel with no count check at all; `fill_value` is stored as
given (a scalar wraps into a one-element list before reaching this model)
with no length check. -/
def imageInit (channels : InitChannels) (mode : Mode) (fill : Option (List ℚ))
    (pal : Option (List PColor)) : Except String QImage :=
  match channels with
  | .noChannels => .ok ⟨mode, [], 0, 0, fill, pal, .RGB⟩
  | .single h w c => .ok ⟨mode, [c], h, w, fill, pal, .RGB⟩
  | .seq arrs =>
    if arrs.length ≠ impliedChannels mode then
      .error "Number of channels does not match mode."
    else
      match arrs with
      | [] => .ok ⟨mode, [], 0, 0, fill, pal, .RGB⟩
      | a :: rest =>
        if rest.all (fun b => b.1 == a.1 && b.2.1 == a.2.1) then
          .ok ⟨mode, (a :: rest).map (fun x => x.2.2), a.1, a.2.1, fill, pal, .RGB⟩
        else .error "Image channels must have the same shape."

/-- Pixel of a real-valued channel for the enhancement engine (gamma and the
logarithmic stretch compute genuine real powers and logarithms, so this part
of the embedding works over the reals). -/
structure RPix where
  data : ℝ
  mask : Bool

/-- A real-valued masked channel, flattened in row-major order. -/
abbrev RChan := List RPix

/-- Image state the enhancement methods read and write: the mode tag and the
channel store — `invert`, `gamma` and the stretches touch no other field of
the Image object. -/
structure RImage where
  mode : Mode
  channels : List RChan

/-- Argument of `invert`: a single truth value or one per channel. -/
inductive InvArg where
  | flag (b : Bool)
  | perChan (l : List Bool)

/-- Channel complement `1 - chn`: data mapped, mask untouched. -/
def invChan (c : RChan) : RChan := c.map (fun px => ⟨1 - px.data, px.mask⟩)

/-- Method `invert`: with a list argument of mismatched length the usage
error is raised; otherwise each selected channel is replaced by its
complement. -/
def invertRun (inv : InvArg) (img : RImage) : Except String RImage :=
  match inv with
  | .perChan l =>
    if l.length ≠ img.channels.length then
      .error "Number of channels and invert components differ."
    else .ok { img with
               channels := (l.zip img.channels).map
                 (fun pc => if pc.1 then invChan pc.2 else pc.2) }
  | .flag b =>
    if b then .ok { img with channels := img.channels.map invChan } else .ok img

/-- Argument of `gamma`: a single exponent or one per channel. -/
inductive GammaArg where
  | scalar (g : ℝ)
  | perChan (l : List ℝ)

/-- Per-channel map `data ** (1.0 / gamma)` with the mask kept (the power is
the real power `Real.rpow`). -/
noncomputable def gammaChan (g : ℝ) (c : RChan) : RChan :=
  c.map (fun px => ⟨px.data ^ (1 / g), px.mask⟩)

/-- Loop body of `gamma` over the (gamma, channel) pairs: a strictly negative
gamma raises the usage error; gamma equal to 1 skips the channel via
`continue`; any other gamma reaches the unguarded division `1.0 / gamma`,
which raises ZeroDivisionError when gamma is 0, and otherwise the channel
maps through the power. -/
noncomputable def gammaGo : List (ℝ × RChan) → Except String (List RChan)
  | [] => .ok []
  | (g, c) :: rest =>
    if g < 0 then .error "Gamma correction must be a positive number."
    else if g = 1 then (gammaGo rest).map (fun cs => c :: cs)
    else if g = 0 then .error "ZeroDivisionError: float division by zero"
    else (gammaGo rest).map (fun cs => gammaChan g c :: cs)

/-- Method `gamma`: a list argument of mismatched length raises the usage
error; a scalar argument is replicated over every channel of the image,
including an alpha channel, and the loop of `gammaGo` runs over all of
them. -/
noncomputable def gammaRun (ga : GammaArg) (img : RImage) : Except String RImage :=
  match ga with
  | .perChan l =>
    if l.length ≠ img.channels.length then
      .error "Number of channels and gamma components differ."
    else (gammaGo (l.zip img.channels)).map (fun cs => { img with channels := cs })
  | .scalar g =>
    (gammaGo ((List.replicate img.channels.length g).zip img.channels)).map
      (fun cs => { img with channels := cs })

/-- Compressed data `arr.compressed()`: the data values of the unmasked
pixels in row-major order. -/
def validData (c : RChan) : List ℝ := (c.filter (fun px => !px.mask)).map RPix.data

/-- Whether every pixel of the channel is masked
(`size == count_masked`, vacuously true for an empty channel). -/
def allMasked (c : RChan) : Bool := c.all RPix.mask

/-- Ascending insertion for `sortAsc`. -/
noncomputable def insertAsc (x : ℝ) : List ℝ → List ℝ
  | [] => [x]
  | y :: ys => if x ≤ y then x :: y :: ys else y :: insertAsc x ys

/-- Ascending sort, the order `np.percentile` works against. -/
noncomputable def sortAsc (l : List ℝ) : List ℝ := l.foldr insertAsc []

/-- Valid-value minimum `arr.min()` (callers guard the fully masked case). -/
noncomputable def validMin (c : RChan) : ℝ :=
  match validData c with
  | [] => 0
  | x :: xs => xs.foldl min x

/-- Valid-value maximum `arr.max()` (callers guard the fully masked case). -/
noncomputable def validMax (c : RChan) : ℝ :=
  match validData c with
  | [] => 0
  | x :: xs => xs.foldl max x

/-- Linear-interpolated percentile `np.percentile(xs, q)`: on the ascending
sort of the data, the fractional rank q/100*(n-1) interpolates between the
two surrounding order statistics, clamping at the ends. -/
noncomputable def percentileR (xs : List ℝ) (q : ℝ) : ℝ :=
  match sortAsc xs with
  | [] => 0
  | s0 :: srest =>
    let s := s0 :: srest
    let n := s.length
    let pos := q / 100 * ((n : ℝ) - 1)
    if pos ≤ 0 then s0
    else if ((n : ℝ) - 1) ≤ pos then s.getLastD 0
    else
      let k := (⌊pos⌋).toNat
      s.getD k 0 + (pos - (k : ℝ)) * (s.getD (k + 1) 0 - s.getD k 0)

/-- General `np.interp(x, xp, fp)` for ascending knots: clamp below the first
and above the last knot, otherwise interpolate linearly on the bracketing
pair of knots. -/
noncomputable def npInterpR (x : ℝ) : List ℝ → List ℝ → ℝ
  | x0 :: x1 :: xs, f0 :: f1 :: fs =>
    if x ≤ x0 then f0
    else if x ≤ x1 then f0 + (x - x0) * (f1 - f0) / (x1 - x0)
    else npInterpR x (x1 :: xs) (f1 :: fs)
  | [_], f0 :: _ => f0
  | _, _ => 0

/-- Method `stretch_linear` on one channel: no-op when everything is masked
or the valid minimum equals the valid maximum; otherwise the cutoff
percentiles of the compressed data give [left, right] and, when the width is
positive, every data value maps affinely through (x - left)/(right - left)
with the mask kept (a non-positive width only warns). -/
noncomputable def stretchLinearChan (cuts : ℝ × ℝ) (c : RChan) : RChan :=
  if allMasked c then c
  else if validMin c = validMax c then c
  else
    let carr := validData c
    let left := percentileR carr (cuts.1 * 100)
    let right := percentileR carr (100 - cuts.2 * 100)
    if 0 < right - left then
      c.map (fun px => ⟨(px.data - left) / (right - left), px.mask⟩)
    else c

/-- Bin-edge ranks 0, 1/2048, ..., 2047/2048
(`np.arange(0.0, 1.0, 1/2048)`). -/
noncomputable def histCdf : List ℝ := (List.range 2048).map (fun k => (k : ℝ) / 2048)

/-- Method `stretch_hist_equalize` on one channel: no-op when everything is
masked; otherwise the 2048 equal-probability bin edges are percentiles of
the compressed data and every valid value maps through linear interpolation
of the cumulative distribution against those bins; a masked pixel keeps its
mask, its data slot being uninitialized in the source
(`np.ma.empty_like`), modelled as zero. -/
noncomputable def stretchHistChan (c : RChan) : RChan :=
  if allMasked c then c
  else
    let carr := validData c
    let bins := histCdf.map (fun q => percentileR carr (q * 100))
    c.map (fun px =>
      if px.mask then ⟨0, true⟩ else ⟨npInterpR px.data bins histCdf, false⟩)

/-- Method `stretch_logarithmic` on one channel with the given factor: no-op
when everything is masked or the valid minimum equals the valid maximum;
otherwise the data rescales to [1, factor] by the valid min/max affine map
and maps through (1/ln factor) * ln(rescaled) over the fixed output range
[0, 1], mask kept. -/
noncomputable def stretchLogChan (factor : ℝ) (c : RChan) : RChan :=
  if allMasked c then c
  else if validMin c = validMax c then c
  else
    let b := (1 - 0) / Real.log factor
    let mn := validMin c
    let mx := validMax c
    let slope := (factor - 1) / (mx - mn)
    c.map (fun px => ⟨0 + b * Real.log (1 + (px.data - mn) * slope), px.mask⟩)

/-- Explicit stretch bound of `crude_stretch`: absent (the channel's own
valid extremum is used), a scalar, or one value per channel indexed by the
channel number. -/
inductive CrudeArg where
  | auto
  | scalar (v : ℝ)
  | perChan (l : List ℝ)

/-- Method `crude_stretch` on one channel: bounds default to the channel's
valid minimum and maximum, a list argument is subscripted with the channel
number; when the channel is not fully masked and the bounds differ, the data
shifts and rescales affinely with the mask kept, else the call only
warns. -/
noncomputable def crudeChan (minA maxA : CrudeArg) (i : Nat) (c : RChan) :
    Except String RChan :=
  (match minA with
   | .auto => .ok (validMin c)
   | .scalar v => .ok v
   | .perChan l => pyGet l i) >>= fun mn =>
  (match maxA with
   | .auto => .ok (validMax c)
   | .scalar v => .ok v
   | .perChan l => pyGet l i) >>= fun mx =>
  if allMasked c then .ok c
  else if 0 < |mx - mn| then
    .ok (c.map (fun px => ⟨(px.data - mn) / (mx - mn), px.mask⟩))
  else .ok c

/-- Sequential per-channel loop of `stretch`: run the per-channel operation
on channel i and write the result back in place, for each i of the index
list in order. -/
noncomputable def loopSet (F : Nat → RChan → Except String RChan) :
    List Nat → List RChan → Except String (List RChan)
  | [], cs => .ok cs
  | i :: rest, cs => F i (cs.getD i []) >>= fun c => loopSet F rest (cs.set i c)

/-- Argument shapes `stretch` recognizes: a cutoff list (a length other than
two is the usage error), the named variants with their keyword parameters,
and "no". -/
inductive StretchArg where
  | pair (cuts : List ℝ)
  | linear (cuts : ℝ × ℝ)
  | histogram
  | crude (minA maxA : CrudeArg)
  | log (factor : ℝ)
  | no

/-- Method `stretch`: the per-channel loop runs over `ch_len` channels, which
excludes the last channel exactly when the mode ends with "A"; "no" returns
at once. -/
noncomputable def stretchRun (s : StretchArg) (img : RImage) : Except String RImage :=
  let chLen := img.channels.length - (if isAlpha img.mode then 1 else 0)
  let idx := List.range chLen
  match s with
  | .pair cuts =>
    if cuts.length = 2 then
      (loopSet (fun _ c => .ok (stretchLinearChan (cuts.getD 0 0, cuts.getD 1 0) c))
          idx img.channels).map (fun cs => { img with channels := cs })
    else .error "Stretch tuple must have exactly two elements"
  | .linear cuts =>
    (loopSet (fun _ c => .ok (stretchLinearChan cuts c)) idx img.channels).map
      (fun cs => { img with channels := cs })
  | .histogram =>
    (loopSet (fun _ c => .ok (stretchHistChan c)) idx img.channels).map
      (fun cs => { img with channels := cs })
  | .crude mnA mxA =>
    (loopSet (fun i c => crudeChan mnA mxA i c) idx img.channels).map
      (fun cs => { img with channels := cs })
  | .log factor =>
    (loopSet (fun _ c => .ok (stretchLogChan factor c)) idx img.channels).map
      (fun cs => { img with channels := cs })
  | .no => .ok img

/-- Method `enhance`: the body calls invert, then stretch (with the merged
keyword parameters), then gamma, in that order. -/
noncomputable def enhance (inverse : InvArg) (gamma : GammaArg) (stretch : StretchArg)
    (img : RImage) : Except String RImage :=
  invertRun inverse img >>= fun i1 =>
  stretchRun stretch i1 >>= fun i2 =>
  gammaRun gamma i2

/-- Pipeline the specification prescribes for `enhance`: call `invert`, then
`stretch`, then `gamma` as three successive primitive calls on the running
image state. -/
noncomputable def enhancePipeline (inverse : InvArg) (gamma : GammaArg)
    (stretch : StretchArg) (img : RImage) : Except String RImage :=
  (invertRun inverse img).bind (fun i1 => (stretchRun stretch i1).bind (gammaRun gamma))

/-- Invariant of claim C6: an image is either empty (no channels, zero shape)
or its channel count matches its mode, its fill value (when present) has one
entry per channel and, in the indexed modes, the palette rows all have the
width the secondary mode implies and the secondary mode is one of the
non-alpha direct modes (as `_to_p` always leaves it). -/
def GoodImage (img : QImage) : Prop :=
  (img.channels = [] ∧ img.height = 0 ∧ img.width = 0) ∨
  (img.channels.length = impliedChannels img.mode ∧
   (∀ f, img.fillValue = some f → f.length = img.channels.length) ∧
   ((img.mode = .P ∨ img.mode = .PA) →
     (∃ pal, img.palette = some pal ∧
        ∀ col ∈ pal, col.length = impliedChannels img.secondaryMode) ∧
     (img.secondaryMode = .L ∨ img.secondaryMode = .RGB ∨ img.secondaryMode = .YCbCr)))

/-!  Helper lemmas about list indexing with defaults. -/

theorem getD_lt_map {α β : Type} (f : α → β) (l : List α) (p : Nat)
    (hp : p < l.length) (d : β) (d2 : α) : (l.map f).getD p d = f (l.getD p d2) := by
  simp [List.getD_eq_getElem?_getD, List.getElem?_eq_getElem, hp]

theorem getD_lt_zipWith {α β γ : Type} (f : α → β → γ) (a : List α) (b : List β)
    (p : Nat) (hpa : p < a.length) (hpb : p < b.length) (d : γ) (da : α) (db : β) :
    (List.zipWith f a b).getD p d = f (a.getD p da) (b.getD p db) := by
  induction a generalizing b p with
  | nil => simp at hpa
  | cons x xs ih =>
    cases b with
    | nil => simp at hpb
    | cons y ys =>
      cases p with
      | zero => rfl
      | succ q =>
        have hpa2 : q < xs.length := by simpa using hpa
        have hpb2 : q < ys.length := by simpa using hpb
        exact ih ys q hpa2 hpb2

theorem getD_lt_zip3With {α β γ δ : Type} (f : α → β → γ → δ) (a : List α)
    (b : List β) (c : List γ) (p : Nat) (hpa : p < a.length) (hpb : p < b.length)
    (hpc : p < c.length) (d : δ) (da : α) (db : β) (dc : γ) :
    (zip3With f a b c).getD p d = f (a.getD p da) (b.getD p db) (c.getD p dc) := by
  induction a generalizing b c p with
  | nil => simp at hpa
  | cons x xs ih =>
    cases b with
    | nil => simp at hpb
    | cons y ys =>
      cases c with
      | nil => simp at hpc
      | cons z zs =>
        cases p with
        | zero => rfl
        | succ q =>
          have hpa2 : q < xs.length := by simpa using hpa
          have hpb2 : q < ys.length := by simpa using hpb
          have hpc2 : q < zs.length := by simpa using hpc
          exact ih ys zs q hpa2 hpb2 hpc2

theorem length_zip3With {α β γ δ : Type} (f : α → β → γ → δ) :
    ∀ (a : List α) (b : List β) (c : List γ),
      (zip3With f a b c).length = min a.length (min b.length c.length)
  | [], _, _ => by simp [zip3With]
  | _ :: _, [], _ => by simp [zip3With]
  | _ :: _, _ :: _, [] => by simp [zip3With]
  | a :: as, b :: bs, c :: cs => by
    simp only [zip3With, List.length_cons, length_zip3With f as bs cs]
    omega

theorem getD_lt_range (n p : Nat) (hp : p < n) (d : Nat) :
    (List.range n).getD p d = p := by
  have hp2 : p < (List.range n).length := by simpa using hp
  rw [List.getD_eq_getElem?_getD, List.getElem?_eq_getElem hp2]
  simp

/-!  C7 — the YCbCr round-trip. -/

/-- C7: evaluating the code at the failing input (r, g, b) = (1, 0, 0): the
source's `ycbcr2rgb` applied to `rgb2ycbcr(1, 0, 0)` returns
r = 1209599/701000 ≈ 1.7256, not 1.  `ycbcr2rgb` divides by (1 - kr) and
(1 - kb) where inverting `rgb2ycbcr` requires multiplying, so the composition
the specification calls the identity is not the identity; the conversion
state machine uses this pair as mutually inverse transitions, so the claim
states the intent and the code diverges from it. -/
theorem C7_ycbcr_roundtrip_code_bug :
    (ycbcr2rgbQ (rgb2ycbcrQ 1 0 0).1 (rgb2ycbcrQ 1 0 0).2.1 (rgb2ycbcrQ 1 0 0).2.2).1 =
      1209599 / 701000 ∧ (1209599 / 701000 : ℚ) ≠ 1 := by
  constructor
  · norm_num [rgb2ycbcrQ, ycbcr2rgbQ, kr, kb]
  · norm_num

/-!  C9 — the enhance pipeline. -/

/-- C9: `enhance(inverse, gamma, stretch, ...)` produces exactly the image
state of calling invert, then stretch (with the merged keyword parameters),
then gamma, in that order, for every combination of arguments. -/
theorem C9_enhance_is_invert_stretch_gamma (inverse : InvArg) (gamma : GammaArg)
    (stretch : StretchArg) (img : RImage) :
    enhance inverse gamma stretch img = enhancePipeline inverse gamma stretch img := rfl

/-!  C10 — gamma zero. -/

theorem gammaGo_zero_head (c : RChan) (rest : List (ℝ × RChan)) :
    gammaGo ((0, c) :: rest) = .error "ZeroDivisionError: float division by zero" := by
  unfold gammaGo
  rw [if_neg (by norm_num), if_neg (by norm_num), if_pos rfl]

/-- C10: gamma 0 is not rejected as a usage error — the check only fires for
gamma strictly below zero and gamma 0 is not skipped as 1 is — so on every
image with at least one channel the call reaches the unguarded division
1.0/gamma and raises ZeroDivisionError. -/
theorem C10_gamma_zero_raises_zero_division (img : RImage) (h : img.channels ≠ []) :
    gammaRun (.scalar 0) img = .error "ZeroDivisionError: float division by zero" := by
  obtain ⟨c, cs, hc⟩ := List.exists_cons_of_ne_nil h
  simp only [gammaRun, hc, List.length_cons, List.replicate_succ, List.zip_cons_cons]
  rw [gammaGo_zero_head]
  rfl

/-- Witness for C10 on a concrete one-channel image. -/
theorem C10_gamma_zero_raises_zero_division_witness :
    ((⟨.L, [[⟨(1 : ℝ)/2, false⟩]]⟩ : RImage).channels ≠ []) ∧
    gammaRun (.scalar 0) ⟨.L, [[⟨(1 : ℝ)/2, false⟩]]⟩ =
      .error "ZeroDivisionError: float division by zero" :=
  ⟨by simp, C10_gamma_zero_raises_zero_division _ (by simp)⟩

/-!  C5 — finalization as a read-only projection. -/

/-- C5 counterexample: on a concrete P-mode image, `_finalize` converts the
image in place — the image object comes back in RGB mode, so its mode (and
channel store and fill value) are not left unchanged as the claim states for
every image. -/
theorem C5_finalize_mutates_indexed_counterexample :
    (finalize ⟨.P, [[⟨0, false⟩]], 1, 1, none,
        some [[some 1, some 2, some 3]], .RGB⟩).map (fun r => r.1.mode) =
      .ok .RGB ∧ Mode.RGB ≠ Mode.P := by
  exact ⟨rfl, by decide⟩

/-- C5 amended: finalization is a read-only projection on every image whose
mode is not indexed — for modes other than P and PA the image component of
the result is the image itself, unchanged; P and PA images are first
converted in place. -/
theorem C5_finalize_read_only_nonindexed (img : QImage) (h1 : img.mode ≠ .P)
    (h2 : img.mode ≠ .PA) : (finalize img).map Prod.fst = .ok img := by
  unfold finalize
  rw [if_neg h1, if_neg h2]
  rfl

/-- Witness for the amended C5 on a concrete L image. -/
theorem C5_finalize_read_only_nonindexed_witness :
    ((⟨.L, [[⟨1/2, false⟩]], 1, 1, some [1/2], none, .RGB⟩ : QImage).mode ≠ .P) ∧
    (finalize ⟨.L, [[⟨1/2, false⟩]], 1, 1, some [1/2], none, .RGB⟩).map Prod.fst =
      .ok ⟨.L, [[⟨1/2, false⟩]], 1, 1, some [1/2], none, .RGB⟩ :=
  ⟨by decide, C5_finalize_read_only_nonindexed _ (by decide) (by decide)⟩

/-!  C4 — the finalized channel and fill mapping. -/

/-- C4 counterexample: with fill_value [1/2] on an L image, finalization
returns the integer fill [127] = [int(0.5 * 255)] — truncation — while
mapping the fill entry the way the claim states, round(clip(1/2,0,1)*255),
gives 128. -/
theorem C4_finalize_fill_counterexample :
    (finalize ⟨.L, [[⟨1/2, false⟩]], 1, 1, some [1/2], none, .RGB⟩).map (fun r => r.2.2) =
      .ok (some [127]) ∧
    ratRoundHE (qclip (1/2) * 255) = 128 ∧ (127 : ℤ) ≠ 128 := by
  have hf : ⌊(255/2 : ℚ)⌋ = 127 := by rw [Int.floor_eq_iff]; norm_num
  refine ⟨?_, ?_, by decide⟩
  · show Except.ok (some [ratTruncZ ((1/2 : ℚ) * 255)]) = .ok (some [127])
    have ht : ratTruncZ ((1/2 : ℚ) * 255) = 127 := by
      have he : ((1/2 : ℚ) * 255) = 255/2 := by norm_num
      unfold ratTruncZ
      rw [he, if_pos (by norm_num), hf]
    rw [ht]
  · have hq : qclip (1/2) * 255 = (255/2 : ℚ) := by unfold qclip; norm_num
    unfold ratRoundHE
    rw [hq, hf]
    rw [if_neg (by norm_num), if_neg (by norm_num), if_neg (by decide)]
    decide

/-- C4 amended: for every image in a non-indexed mode, finalization maps each
channel value v to round(clip(v,0,1)*255) — numpy rounding, half to even —
as an integer with the channel's mask preserved, while each fill_value entry
maps through int(col*255): truncation toward zero with no clamping. -/
theorem C4_finalize_mapping (img : QImage) (h1 : img.mode ≠ .P) (h2 : img.mode ≠ .PA) :
    ∃ chansOut fillOut, finalize img = .ok (img, chansOut, fillOut) ∧
      chansOut.length = img.channels.length ∧
      (∀ i p, i < img.channels.length → p < (img.channels.getD i []).length →
        (chansOut.getD i []).getD p (0, false) =
          (ratRoundHE (qclip (chanGet (img.channels.getD i []) p).data * 255),
            (chanGet (img.channels.getD i []) p).mask)) ∧
      fillOut = img.fillValue.map (fun f => f.map (fun col => ratTruncZ (col * 255))) := by
  refine ⟨img.channels.map (fun c => c.map finalizePix),
    img.fillValue.map (fun f => f.map (fun col => ratTruncZ (col * 255))),
    ?_, by simp, ?_, rfl⟩
  · unfold finalize
    rw [if_neg h1, if_neg h2]
    rfl
  · intro i p hi hp
    rw [getD_lt_map (fun c => c.map finalizePix) img.channels i hi [] []]
    rw [getD_lt_map finalizePix (img.channels.getD i []) p hp (0, false) ⟨0, false⟩]
    rfl

/-- Witness for the amended C4 on a concrete RGB image with a fill value. -/
theorem C4_finalize_mapping_witness :
    ((⟨.RGB, [[⟨1/10, false⟩], [⟨3/10, true⟩], [⟨2, false⟩]], 1, 1,
        some [1/2, 2, -1/2], none, .RGB⟩ : QImage).mode ≠ .P) ∧
    (∃ chansOut fillOut,
      finalize ⟨.RGB, [[⟨1/10, false⟩], [⟨3/10, true⟩], [⟨2, false⟩]], 1, 1,
        some [1/2, 2, -1/2], none, .RGB⟩ =
        .ok (⟨.RGB, [[⟨1/10, false⟩], [⟨3/10, true⟩], [⟨2, false⟩]], 1, 1,
          some [1/2, 2, -1/2], none, .RGB⟩, chansOut, fillOut) ∧
      chansOut.length = 3 ∧
      (∀ i p, i < 3 → p < 1 →
        (chansOut.getD i []).getD p (0, false) =
          (ratRoundHE (qclip (chanGet ([[⟨1/10, false⟩], [⟨3/10, true⟩],
              [⟨2, false⟩]].getD i []) p).data * 255),
            (chanGet ([[⟨1/10, false⟩], [⟨3/10, true⟩], [⟨2, false⟩]].getD i []) p).mask)) ∧
      fillOut = some [127, 510, -127]) := by
  refine ⟨by decide, ?_⟩
  obtain ⟨co, fo, h1, h2, h3, h4⟩ :=
    C4_finalize_mapping ⟨.RGB, [[⟨1/10, false⟩], [⟨3/10, true⟩], [⟨2, false⟩]], 1, 1,
      some [1/2, 2, -1/2], none, .RGB⟩ (by decide) (by decide)
  refine ⟨co, fo, h1, h2, ?_, ?_⟩
  · intro i p hi hp
    exact h3 i p (by simpa using hi) (by
      interval_cases i <;> simpa using hp)
  · rw [h4]
    have t1 : ratTruncZ ((1/2 : ℚ) * 255) = 127 := by
      unfold ratTruncZ
      rw [show ((1/2 : ℚ) * 255) = 255/2 by norm_num, if_pos (by norm_num)]
      rw [Int.floor_eq_iff]; norm_num
    have t2 : ratTruncZ ((2 : ℚ) * 255) = 510 := by
      unfold ratTruncZ
      rw [show ((2 : ℚ) * 255) = 510 by norm_num, if_pos (by norm_num)]
      norm_num
    have t3 : ratTruncZ ((-1/2 : ℚ) * 255) = -127 := by
      unfold ratTruncZ
      rw [show ((-1/2 : ℚ) * 255) = -(255/2) by norm_num, if_neg (by norm_num)]
      rw [Int.ceil_eq_iff]; norm_num
    show some ([(1/2 : ℚ), 2, -1/2].map (fun col => ratTruncZ (col * 255))) =
      some [127, 510, -127]
    rw [List.map_cons, List.map_cons, List.map_cons, List.map_nil, t1, t2, t3]

/-!  C1 — merge. -/

theorem isEmptyChk_of_ne (img : QImage) (hc : img.channels ≠ [])
    (hsh : ¬(img.height = 0 ∧ img.width = 0)) : isEmptyChk img = .ok false := by
  have h1 : img.channels.isEmpty = false := by
    cases hx : img.channels with
    | nil => exact absurd hx hc
    | cons a l => rfl
  have h2 : (img.height == 0 && img.width == 0) = false := by
    rcases Bool.eq_false_or_eq_true (img.height == 0 && img.width == 0) with h | h
    · simp only [Bool.and_eq_true, beq_iff_eq] at h
      exact absurd h hsh
    · exact h
  simp only [isEmptyChk, h1, h2]
  rfl

theorem exc_bind_ok {ε α β : Type} (a : α) (f : α → Except ε β) :
    (Except.ok a >>= f : Except ε β) = f a := rfl

theorem selfmask_foldl_length (rest : List MChan) (acc : List Bool) (N : Nat)
    (hacc : acc.length = N) (hrest : ∀ ch ∈ rest, ch.length = N) :
    (rest.foldl (fun a ch => List.zipWith (· || ·) a (ch.map MPix.mask)) acc).length = N := by
  induction rest generalizing acc with
  | nil => simpa using hacc
  | cons ch rest ih =>
    rw [List.foldl_cons]
    refine ih _ ?_ (fun c hc => hrest c (by simp [hc]))
    have hch : ch.length = N := hrest ch (by simp)
    simp [hacc, hch]

theorem selfmask_foldl_getD (rest : List MChan) (acc : List Bool) (N p : Nat)
    (hacc : acc.length = N) (hrest : ∀ ch ∈ rest, ch.length = N) (hp : p < N) :
    (rest.foldl (fun a ch => List.zipWith (· || ·) a (ch.map MPix.mask)) acc).getD p false =
      (acc.getD p false || rest.any (fun ch => (chanGet ch p).mask)) := by
  induction rest generalizing acc with
  | nil => simp
  | cons ch rest ih =>
    have hch : ch.length = N := hrest ch (by simp)
    have hlen : (List.zipWith (· || ·) acc (ch.map MPix.mask)).length = N := by
      simp [hacc, hch]
    rw [List.foldl_cons, ih _ hlen (fun c hc => hrest c (by simp [hc]))]
    rw [getD_lt_zipWith (· || ·) acc (ch.map MPix.mask) p (by omega)
      (by simp [hch]; omega) false false false]
    rw [getD_lt_map MPix.mask ch p (by omega) false ⟨0, false⟩]
    simp [chanGet, Bool.or_assoc]

theorem selfmaskList_length (chs : List MChan) (N : Nat) (hne : chs ≠ [])
    (hch : ∀ c ∈ chs, c.length = N) : (selfmaskList chs).length = N := by
  cases chs with
  | nil => exact absurd rfl hne
  | cons c rest =>
    unfold selfmaskList
    refine selfmask_foldl_length rest _ N ?_ (fun x hx => hch x (by simp [hx]))
    simp [hch c (by simp)]

theorem selfmaskList_getD (chs : List MChan) (N p : Nat)
    (hch : ∀ c ∈ chs, c.length = N) (hp : p < N) :
    (selfmaskList chs).getD p false = chs.any (fun c => (chanGet c p).mask) := by
  cases chs with
  | nil => simp [selfmaskList]
  | cons c rest =>
    unfold selfmaskList
    rw [selfmask_foldl_getD rest (c.map MPix.mask) N p (by simp [hch c (by simp)])
      (fun x hx => hch x (by simp [hx])) hp]
    rw [getD_lt_map MPix.mask c p (by rw [hch c (by simp)]; exact hp) false ⟨0, false⟩]
    simp [chanGet]

/-- C1 counterexample: self is an LA image whose single pixel is invalid in
channel 0 but valid in channel 1 (value 1/2).  The claim says a position with
at least one valid self channel is left untouched; the code computes selfmask
as the OR of the channel masks, so the pixel counts as missing and channel 1
takes the background value 7/10 ≠ 1/2. -/
theorem C1_merge_or_mask_counterexample :
    merge ⟨.LA, [[⟨1/10, true⟩], [⟨1/2, false⟩]], 1, 1, none, none, .RGB⟩
          ⟨.LA, [[⟨3/10, false⟩], [⟨7/10, false⟩]], 1, 1, none, none, .RGB⟩ =
      .ok ⟨.LA, [[⟨3/10, false⟩], [⟨7/10, false⟩]], 1, 1, none, none, .RGB⟩ ∧
    (7/10 : ℚ) ≠ 1/2 := by
  exact ⟨rfl, by norm_num⟩

/-- C1 amended: for two non-empty images of identical mode and shape (with
the background having at least as many channels), the override mask selfmask
is the logical OR of all of self's channel masks: at every position where
every self channel is valid, each channel keeps its value and mask unchanged
regardless of other; at positions where at least one self channel is
invalid, each channel takes other's value and its resulting mask is
other's mask there (selfmask AND other's mask). -/
theorem C1_merge_pointwise (self other : QImage) (N : Nat)
    (hmode : self.mode = other.mode)
    (hne : self.channels ≠ []) (hsh : ¬(self.height = 0 ∧ self.width = 0))
    (hlen : self.channels.length ≤ other.channels.length)
    (hsc : ∀ c ∈ self.channels, c.length = N)
    (hoc : ∀ c ∈ other.channels, c.length = N) :
    ∃ res, merge self other = .ok res ∧
      res.mode = self.mode ∧ res.channels.length = self.channels.length ∧
      ∀ i p, i < self.channels.length → p < N →
        ((self.channels.any (fun c => (chanGet c p).mask) = false →
            chanGet (res.channels.getD i []) p = chanGet (self.channels.getD i []) p) ∧
         (self.channels.any (fun c => (chanGet c p).mask) = true →
            chanGet (res.channels.getD i []) p =
              ⟨(chanGet (other.channels.getD i []) p).data,
               (chanGet (other.channels.getD i []) p).mask⟩)) := by
  have hselfD : ∀ i, i < self.channels.length → self.channels.getD i [] ∈ self.channels := by
    intro i hi
    rw [List.getD_eq_getElem?_getD, List.getElem?_eq_getElem hi]
    exact List.getElem_mem hi
  have hotherD : ∀ i, i < other.channels.length → other.channels.getD i [] ∈ other.channels := by
    intro i hi
    rw [List.getD_eq_getElem?_getD, List.getElem?_eq_getElem hi]
    exact List.getElem_mem hi
  unfold merge
  rw [isEmptyChk_of_ne self hne hsh]
  simp only [exc_bind_ok]
  rw [if_neg (by simp : ¬(false = true)), if_neg (not_not_intro hmode),
    if_neg (Nat.not_lt.mpr hlen)]
  refine ⟨_, rfl, rfl, by simpa using hlen, ?_⟩
  intro i p hi hp
  have hio : i < other.channels.length := lt_of_lt_of_le hi hlen
  have hsmlen : (selfmaskList self.channels).length = N :=
    selfmaskList_length self.channels N hne hsc
  have hslen : (self.channels.getD i []).length = N := hsc _ (hselfD i hi)
  have holen : (other.channels.getD i []).length = N := hoc _ (hotherD i hio)
  rw [getD_lt_zipWith (fun sc oc => zip3With mergePix (selfmaskList self.channels) sc oc)
    self.channels other.channels i hi hio [] [] []]
  unfold chanGet
  rw [getD_lt_zip3With mergePix (selfmaskList self.channels)
    (self.channels.getD i []) (other.channels.getD i []) p (by omega) (by omega) (by omega)
    ⟨0, false⟩ false ⟨0, false⟩ ⟨0, false⟩]
  have hsm := selfmaskList_getD self.channels N p hsc hp
  constructor
  · intro hall
    rw [show (selfmaskList self.channels).getD p false = false from hsm.trans hall]
    have hmaskp : ((self.channels.getD i []).getD p ⟨0, false⟩).mask = false := by
      have := (List.any_eq_false.mp hall) (self.channels.getD i []) (hselfD i hi)
      simpa [chanGet] using this
    show mergePix false _ _ = _
    unfold mergePix
    simp only [if_neg (by simp : ¬(false = true)), Bool.false_and]
    cases hx : (self.channels.getD i []).getD p ⟨0, false⟩ with
    | mk d m =>
      rw [hx] at hmaskp
      simp at hmaskp
      rw [hmaskp]
  · intro hany
    rw [show (selfmaskList self.channels).getD p false = true from hsm.trans hany]
    show mergePix true _ _ = _
    unfold mergePix
    simp

/-- Witness for the amended C1: a 1-pixel L pair where self is valid (value
kept) and a 1-pixel check through the masked branch follows from the same
application. -/
theorem C1_merge_pointwise_witness :
    ((⟨.L, [[⟨2, false⟩]], 1, 1, none, none, .RGB⟩ : QImage).mode =
      (⟨.L, [[⟨5, false⟩]], 1, 1, none, none, .RGB⟩ : QImage).mode) ∧
    (∃ res, merge ⟨.L, [[⟨2, false⟩]], 1, 1, none, none, .RGB⟩
        ⟨.L, [[⟨5, false⟩]], 1, 1, none, none, .RGB⟩ = .ok res ∧
      res.mode = Mode.L ∧ res.channels.length = 1 ∧
      ∀ i p, i < 1 → p < 1 →
        ((([[(⟨2, false⟩ : MPix)]] : List MChan).any
            (fun c => (chanGet c p).mask) = false →
            chanGet (res.channels.getD i []) p =
              chanGet (([[⟨2, false⟩]] : List MChan).getD i []) p) ∧
         (([[(⟨2, false⟩ : MPix)]] : List MChan).any
            (fun c => (chanGet c p).mask) = true →
            chanGet (res.channels.getD i []) p =
              ⟨(chanGet (([[⟨5, false⟩]] : List MChan).getD i []) p).data,
               (chanGet (([[⟨5, false⟩]] : List MChan).getD i []) p).mask⟩))) :=
  ⟨rfl, C1_merge_pointwise ⟨.L, [[⟨2, false⟩]], 1, 1, none, none, .RGB⟩
    ⟨.L, [[⟨5, false⟩]], 1, 1, none, none, .RGB⟩ 1 rfl (by simp) (by simp)
    (by simp) (by simp) (by simp)⟩

/-!  C3 — alpha under stretch and gamma. -/

theorem exc_bind_error {ε α β : Type} (e : ε) (f : α → Except ε β) :
    (Except.error e >>= f : Except ε β) = .error e := rfl

theorem exc_map_eq_ok {ε α β : Type} (f : α → β) (x : Except ε α) (b : β)
    (h : x.map f = .ok b) : ∃ a, x = .ok a ∧ f a = b := by
  cases x with
  | error e => exact Except.noConfusion h
  | ok a =>
    refine ⟨a, rfl, ?_⟩
    exact Except.ok.inj h

theorem getLast?_set_lt {α : Type} (l : List α) (i : Nat) (a : α) (h : i + 1 < l.length) :
    (l.set i a).getLast? = l.getLast? := by
  rw [List.getLast?_eq_getElem?, List.getLast?_eq_getElem?, List.length_set]
  rw [List.getElem?_set_ne (by omega)]

theorem loopSet_getLast (F : Nat → RChan → Except String RChan) :
    ∀ (idx : List Nat) (cs cs2 : List RChan),
      (∀ i ∈ idx, i + 1 < cs.length) →
      loopSet F idx cs = .ok cs2 → cs2.getLast? = cs.getLast? := by
  intro idx
  induction idx with
  | nil =>
    intro cs cs2 _ h
    unfold loopSet at h
    rw [Except.ok.inj h]
  | cons i rest ih =>
    intro cs cs2 hb h
    unfold loopSet at h
    cases hF : F i (cs.getD i []) with
    | error e =>
      rw [hF, exc_bind_error] at h
      exact Except.noConfusion h
    | ok c =>
      rw [hF, exc_bind_ok] at h
      have h1 := ih (cs.set i c) cs2
        (fun j hj => by rw [List.length_set]; exact hb j (by simp [hj])) h
      rw [h1, getLast?_set_lt _ _ _ (hb i (by simp))]

theorem stretchRun_last_aux (F : Nat → RChan → Except String RChan) (img img2 : RImage)
    (h : (loopSet F (List.range (img.channels.length - 1)) img.channels).map
        (fun cs => { img with channels := cs }) = .ok img2) :
    img2.channels.getLast? = img.channels.getLast? := by
  obtain ⟨cs2, hcs, hb⟩ := exc_map_eq_ok _ _ _ h
  have h2 : img2.channels = cs2 := by rw [← hb]
  rw [h2]
  refine loopSet_getLast F _ _ _ (fun i hi => ?_) hcs
  have := List.mem_range.mp hi
  omega

theorem gammaGo_pos (g : ℝ) (h0 : 0 < g) (h1 : g ≠ 1) :
    ∀ cs : List RChan,
      gammaGo ((List.replicate cs.length g).zip cs) = .ok (cs.map (gammaChan g)) := by
  intro cs
  induction cs with
  | nil => rfl
  | cons c rest ih =>
    show gammaGo ((g, c) :: (List.replicate rest.length g).zip rest) = _
    unfold gammaGo
    rw [if_neg (not_lt.mpr (le_of_lt h0)), if_neg h1, if_neg (ne_of_gt h0), ih]
    rfl

theorem gammaRun_scalar_pos (g : ℝ) (h0 : 0 < g) (h1 : g ≠ 1) (img : RImage) :
    gammaRun (.scalar g) img = .ok { img with channels := img.channels.map (gammaChan g) } := by
  show Except.map (fun cs => ({ mode := img.mode, channels := cs } : RImage))
      (gammaGo ((List.replicate img.channels.length g).zip img.channels)) =
    Except.ok { mode := img.mode, channels := img.channels.map (gammaChan g) }
  rw [gammaGo_pos g h0 h1 img.channels]
  rfl

/-- C3 counterexample: gamma with the scalar exponent 2 on an LA image with
alpha value 1/4 changes the alpha channel to (1/4) ** (1/2) = 1/2 ≠ 1/4: the
gamma loop runs over every channel, the alpha channel included. -/
theorem C3_gamma_alpha_counterexample :
    (gammaRun (.scalar 2) ⟨.LA, [[⟨1, false⟩], [⟨1/4, false⟩]]⟩).map
      (fun i => i.channels.map (fun c => c.map RPix.data)) = .ok [[(1 : ℝ)], [1/2]] ∧
    ((1 : ℝ)/2) ≠ 1/4 := by
  constructor
  · rw [gammaRun_scalar_pos 2 (by norm_num) (by norm_num)]
    have h1 : (1 : ℝ) ^ ((1:ℝ)/2) = 1 := Real.one_rpow _
    have h4 : ((1:ℝ)/4) ^ ((1:ℝ)/2) = 1/2 := by
      rw [show ((1:ℝ)/4) = ((1:ℝ)/2) ^ (2:ℕ) by norm_num]
      rw [← Real.rpow_natCast ((1:ℝ)/2) 2, ← Real.rpow_mul (by norm_num)]
      rw [show (((2:ℕ):ℝ) * ((1:ℝ)/2)) = 1 by norm_num, Real.rpow_one]
    simp only [Except.map, gammaChan, List.map_cons, List.map_nil]
    rw [h1, h4]
  · norm_num

/-- C3 amended: for every image whose mode ends in "A", stretch of any
variant and any argument leaves the last (alpha) channel untouched — its
values and mask are unchanged — but gamma with a scalar argument other than
1 transforms every channel of the image, the alpha channel included, through
v ** (1/gamma). -/
theorem C3_stretch_skips_alpha_gamma_does_not :
    (∀ (img : RImage) (s : StretchArg) (img2 : RImage), isAlpha img.mode = true →
      stretchRun s img = .ok img2 → img2.channels.getLast? = img.channels.getLast?) ∧
    (∀ (img : RImage) (g : ℝ), 0 < g → g ≠ 1 →
      gammaRun (.scalar g) img =
        .ok { img with channels := img.channels.map (gammaChan g) }) := by
  constructor
  · intro img s img2 ha h
    cases s with
    | pair cuts =>
      simp only [stretchRun, ha, if_true] at h
      by_cases h2 : cuts.length = 2
      · rw [if_pos h2] at h
        exact stretchRun_last_aux _ img img2 h
      · rw [if_neg h2] at h
        exact Except.noConfusion h
    | linear cuts =>
      simp only [stretchRun, ha, if_true] at h
      exact stretchRun_last_aux _ img img2 h
    | histogram =>
      simp only [stretchRun, ha, if_true] at h
      exact stretchRun_last_aux _ img img2 h
    | crude mnA mxA =>
      simp only [stretchRun, ha, if_true] at h
      exact stretchRun_last_aux _ img img2 h
    | log factor =>
      simp only [stretchRun, ha, if_true] at h
      exact stretchRun_last_aux _ img img2 h
    | no =>
      simp only [stretchRun] at h
      rw [← Except.ok.inj h]
  · intro img g h0 h1
    exact gammaRun_scalar_pos g h0 h1 img

/-- Witness for the amended C3: the stretch part applied with the "no"
variant on a concrete LA image, and the gamma part applied with exponent 2
on the same image. -/
theorem C3_stretch_skips_alpha_witness :
    (isAlpha (⟨.LA, [[⟨0, false⟩], [⟨1, false⟩]]⟩ : RImage).mode = true ∧
      stretchRun .no (⟨.LA, [[⟨0, false⟩], [⟨1, false⟩]]⟩ : RImage) =
        .ok ⟨.LA, [[⟨0, false⟩], [⟨1, false⟩]]⟩ ∧
      (⟨.LA, [[⟨0, false⟩], [⟨1, false⟩]]⟩ : RImage).channels.getLast? =
        (⟨.LA, [[⟨0, false⟩], [⟨1, false⟩]]⟩ : RImage).channels.getLast?) ∧
    gammaRun (.scalar 2) (⟨.LA, [[⟨0, false⟩], [⟨1, false⟩]]⟩ : RImage) =
      .ok ⟨.LA, ([[⟨0, false⟩], [⟨1, false⟩]] : List RChan).map (gammaChan 2)⟩ :=
  ⟨⟨rfl, rfl, C3_stretch_skips_alpha_gamma_does_not.1
      ⟨.LA, [[⟨0, false⟩], [⟨1, false⟩]]⟩ .no _ rfl rfl⟩,
    C3_stretch_skips_alpha_gamma_does_not.2 ⟨.LA, [[⟨0, false⟩], [⟨1, false⟩]]⟩ 2
      (by norm_num) (by norm_num)⟩

/-!  C8 — alpha symmetry. -/

theorem convertF_succ (fuel : Nat) (img : QImage) (m : Mode) :
    convertF (fuel + 1) img m = convertBody (convertF fuel) img m := rfl

theorem addAlphaM_spec {m ma : Mode} (h : addAlphaM m = some ma) :
    ma ≠ m ∧ isAlpha m = false ∧ isAlpha ma = true ∧ addAlphaM ma = none ∧
    impliedChannels ma = impliedChannels m + 1 ∧ baseMode ma = m := by
  cases m with
  | L => injection h with h2; subst h2; decide
  | RGB => injection h with h2; subst h2; decide
  | YCbCr => injection h with h2; subst h2; decide
  | P => injection h with h2; subst h2; decide
  | LA => exact Option.noConfusion h
  | RGBA => exact Option.noConfusion h
  | YCbCrA => exact Option.noConfusion h
  | PA => exact Option.noConfusion h

theorem convertF_add_alpha (fuel : Nat) (img : QImage) (ma : Mode) (c : MChan)
    (rest : List MChan) (hma : addAlphaM img.mode = some ma) (hc : img.channels = c :: rest)
    (hsh : ¬(img.height = 0 ∧ img.width = 0)) :
    convertF (fuel + 1) img ma = .ok { img with
      mode := ma
      channels := img.channels ++ [onesChan c.length]
      fillValue := img.fillValue.map (fun f => f ++ [1]) } := by
  obtain ⟨hne, _, _, _, _, _⟩ := addAlphaM_spec hma
  rw [convertF_succ]
  unfold convertBody
  rw [if_neg hne, isEmptyChk_of_ne img (by rw [hc]; simp) hsh, exc_bind_ok]
  rw [if_neg (by simp : ¬(false = true)), if_pos hma.symm, hc]

theorem convertF_drop_alpha (fuel : Nat) (img : QImage) (mb : Mode)
    (hmb : addAlphaM mb = some img.mode) (hc : img.channels ≠ [])
    (hsh : ¬(img.height = 0 ∧ img.width = 0)) :
    convertF (fuel + 1) img mb = .ok { img with
      mode := mb
      channels := img.channels.dropLast
      fillValue := img.fillValue.map (fun f => f.dropLast) } := by
  obtain ⟨hne, _, _, hnone, _, _⟩ := addAlphaM_spec hmb
  rw [convertF_succ]
  unfold convertBody
  rw [if_neg (Ne.symm hne), isEmptyChk_of_ne img hc hsh, exc_bind_ok]
  rw [if_neg (by simp : ¬(false = true))]
  rw [if_neg (by rw [hnone]; simp : ¬(some mb = addAlphaM img.mode))]
  rw [if_pos hmb]

/-- C8: on every non-empty image of a non-alpha mode, converting to
mode + "A" appends exactly one all-ones fully valid channel and appends 1 to
the fill value, changing nothing else, and converting back drops exactly
that channel and fill entry, restoring the original image exactly; in the
reverse order, on an alpha-mode image, dropping the alpha and re-adding it
keeps every non-alpha channel (the dropped alpha values are replaced by the
all-ones channel). -/
theorem C8_alpha_symmetry :
    (∀ (img : QImage) (ma : Mode) (c : MChan) (rest : List MChan),
      addAlphaM img.mode = some ma → img.channels = c :: rest →
      ¬(img.height = 0 ∧ img.width = 0) →
      convertF 10 img ma = .ok { img with
        mode := ma
        channels := img.channels ++ [onesChan c.length]
        fillValue := img.fillValue.map (fun f => f ++ [1]) } ∧
      convertF 10 { img with
        mode := ma
        channels := img.channels ++ [onesChan c.length]
        fillValue := img.fillValue.map (fun f => f ++ [1]) } img.mode = .ok img) ∧
    (∀ (img : QImage) (mb : Mode) (d : MChan) (rest2 : List MChan),
      addAlphaM mb = some img.mode → img.channels.dropLast = d :: rest2 →
      ¬(img.height = 0 ∧ img.width = 0) →
      convertF 10 img mb = .ok { img with
        mode := mb
        channels := img.channels.dropLast
        fillValue := img.fillValue.map (fun f => f.dropLast) } ∧
      convertF 10 { img with
        mode := mb
        channels := img.channels.dropLast
        fillValue := img.fillValue.map (fun f => f.dropLast) } img.mode =
        .ok { img with
          channels := img.channels.dropLast ++ [onesChan d.length]
          fillValue := img.fillValue.map (fun f => f.dropLast ++ [1]) }) := by
  constructor
  · intro img ma c rest hma hc hsh
    refine ⟨convertF_add_alpha 9 img ma c rest hma hc hsh, ?_⟩
    have h2 := convertF_drop_alpha 9 { img with
        mode := ma
        channels := img.channels ++ [onesChan c.length]
        fillValue := img.fillValue.map (fun f => f ++ [1]) } img.mode
      (by simpa using hma) (by simp) hsh
    refine h2.trans ?_
    have e2 : (img.fillValue.map (fun f => f ++ [1])).map (fun f => f.dropLast) =
        img.fillValue := by
      cases img.fillValue with
      | none => rfl
      | some f => simp
    show Except.ok ({ img with
        mode := img.mode
        channels := (img.channels ++ [onesChan c.length]).dropLast
        fillValue := (img.fillValue.map (fun f => f ++ [1])).map
          (fun f => f.dropLast) } : QImage) = .ok img
    rw [List.dropLast_concat, e2]
  · intro img mb d rest2 hmb hdrop hsh
    have hcne : img.channels ≠ [] := by
      intro hnil
      rw [hnil] at hdrop
      exact List.noConfusion hdrop
    refine ⟨convertF_drop_alpha 9 img mb hmb hcne hsh, ?_⟩
    have h2 := convertF_add_alpha 9 { img with
        mode := mb
        channels := img.channels.dropLast
        fillValue := img.fillValue.map (fun f => f.dropLast) } img.mode d rest2
      (by simpa using hmb) (by simpa using hdrop) hsh
    refine h2.trans ?_
    have e2 : (img.fillValue.map (fun f => f.dropLast)).map (fun f => f ++ [1]) =
        img.fillValue.map (fun f => f.dropLast ++ [1]) := by
      cases img.fillValue with
      | none => rfl
      | some f => rfl
    show Except.ok ({ img with
        mode := img.mode
        channels := img.channels.dropLast ++ [onesChan d.length]
        fillValue := (img.fillValue.map (fun f => f.dropLast)).map
          (fun f => f ++ [1]) } : QImage) = _
    rw [e2]

/-- Witness for C8: the forward direction on a one-pixel L image with a fill
value, and the reverse direction on a two-channel LA image. -/
theorem C8_alpha_symmetry_witness :
    (convertF 10 ⟨.L, [[⟨2, false⟩]], 1, 1, some [3], none, .RGB⟩ .LA =
        .ok ⟨.LA, [[⟨2, false⟩], [⟨1, false⟩]], 1, 1, some [3, 1], none, .RGB⟩ ∧
      convertF 10 ⟨.LA, [[⟨2, false⟩], [⟨1, false⟩]], 1, 1, some [3, 1], none, .RGB⟩ .L =
        .ok ⟨.L, [[⟨2, false⟩]], 1, 1, some [3], none, .RGB⟩) ∧
    (convertF 10 ⟨.LA, [[⟨2, false⟩], [⟨5, false⟩]], 1, 1, some [3, 4], none, .RGB⟩ .L =
        .ok ⟨.L, [[⟨2, false⟩]], 1, 1, some [3], none, .RGB⟩ ∧
      convertF 10 ⟨.L, [[⟨2, false⟩]], 1, 1, some [3], none, .RGB⟩ .LA =
        .ok ⟨.LA, [[⟨2, false⟩], [⟨1, false⟩]], 1, 1, some [3, 1], none, .RGB⟩) :=
  ⟨C8_alpha_symmetry.1 ⟨.L, [[⟨2, false⟩]], 1, 1, some [3], none, .RGB⟩ .LA
      [⟨2, false⟩] [] rfl rfl (by simp),
    C8_alpha_symmetry.2 ⟨.LA, [[⟨2, false⟩], [⟨5, false⟩]], 1, 1, some [3, 4], none, .RGB⟩
      .L [⟨2, false⟩] [] rfl rfl (by simp)⟩

/-!  C2 — palette quantization and its round-trip. -/

theorem firstIdx_getD {c : PColor} : ∀ (pal : List PColor) (k : Nat),
    firstIdx c pal = some k → pal.getD k [] = c := by
  intro pal
  induction pal with
  | nil => intro k h; exact Option.noConfusion h
  | cons e rest ih =>
    intro k h
    unfold firstIdx at h
    by_cases he : e = c
    · rw [if_pos he] at h
      injection h with h2
      subst h2
      simpa using he
    · rw [if_neg he] at h
      cases hr : firstIdx c rest with
      | none => rw [hr] at h; exact Option.noConfusion h
      | some k2 =>
        rw [hr] at h
        injection h with h2
        subst h2
        simpa using ih k2 hr

theorem firstIdx_lt {c : PColor} : ∀ (pal : List PColor) (k : Nat),
    firstIdx c pal = some k → k < pal.length := by
  intro pal
  induction pal with
  | nil => intro k h; exact Option.noConfusion h
  | cons e rest ih =>
    intro k h
    unfold firstIdx at h
    by_cases he : e = c
    · rw [if_pos he] at h
      injection h with h2
      subst h2
      simp
    · rw [if_neg he] at h
      cases hr : firstIdx c rest with
      | none => rw [hr] at h; exact Option.noConfusion h
      | some k2 =>
        rw [hr] at h
        injection h with h2
        subst h2
        have := ih k2 hr
        simp
        omega

theorem firstIdx_append_of_found {c : PColor} (ext : List PColor) :
    ∀ (pal : List PColor) (k : Nat), firstIdx c pal = some k →
      firstIdx c (pal ++ ext) = some k := by
  intro pal
  induction pal with
  | nil => intro k h; exact Option.noConfusion h
  | cons e rest ih =>
    intro k h
    unfold firstIdx at h
    show (if e = c then some 0 else (firstIdx c (rest ++ ext)).map (· + 1)) = some k
    by_cases he : e = c
    · rw [if_pos he] at h ⊢
      exact h
    · rw [if_neg he] at h ⊢
      cases hr : firstIdx c rest with
      | none => rw [hr] at h; exact Option.noConfusion h
      | some k2 =>
        rw [hr] at h
        rw [ih k2 hr]
        exact h

theorem firstIdx_append_self {c : PColor} : ∀ (pal : List PColor),
    firstIdx c pal = none → firstIdx c (pal ++ [c]) = some pal.length := by
  intro pal
  induction pal with
  | nil =>
    intro _
    show (if c = c then some 0 else (firstIdx c ([] : List PColor)).map (· + 1)) = some 0
    rw [if_pos rfl]
  | cons e rest ih =>
    intro h
    unfold firstIdx at h
    show (if e = c then some 0 else (firstIdx c (rest ++ [c])).map (· + 1)) =
      some (e :: rest).length
    by_cases he : e = c
    · rw [if_pos he] at h
      exact Option.noConfusion h
    · rw [if_neg he] at h ⊢
      have hr : firstIdx c rest = none := Option.map_eq_none'.mp h
      rw [ih hr]
      simp

theorem getD_mem_of_lt {α : Type} (l : List α) (i : Nat) (d : α) (hi : i < l.length) :
    l.getD i d ∈ l := by
  rw [List.getD_eq_getElem?_getD, List.getElem?_eq_getElem hi]
  exact List.getElem_mem hi

theorem toPFold_prefix : ∀ (cs pal : List PColor) (li : Nat),
    ∃ ext, (toPFold pal li cs).1.1 = pal ++ ext := by
  intro cs
  induction cs with
  | nil => intro pal li; exact ⟨[], by simp [toPFold]⟩
  | cons c rest ih =>
    intro pal li
    unfold toPFold
    cases hf : firstIdx c pal with
    | some k => simpa using ih pal li
    | none =>
      obtain ⟨ext, he⟩ := ih (pal ++ [c]) pal.length
      refine ⟨[c] ++ ext, ?_⟩
      simpa using he

theorem firstIdx_eq_none {c : PColor} : ∀ (pal : List PColor),
    (∀ e ∈ pal, e ≠ c) → firstIdx c pal = none := by
  intro pal
  induction pal with
  | nil => intro _; rfl
  | cons e rest ih =>
    intro hne
    show (if e = c then some 0 else (firstIdx c rest).map (· + 1)) = none
    rw [if_neg (hne e (List.mem_cons_self _ _)),
      ih (fun x hx => hne x (List.mem_cons_of_mem _ hx))]
    rfl

theorem toPFold_fresh : ∀ (cs pal : List PColor) (li n : Nat), n < cs.length →
    (∀ e ∈ pal, e ≠ cs.getD n []) →
    (∀ q, q < n → cs.getD q [] ≠ cs.getD n []) →
    firstIdx (cs.getD n []) (toPFold pal li cs).1.1 =
      some ((toPFold pal li cs).2.getD n 0) := by
  intro cs
  induction cs with
  | nil =>
    intro pal li n hn
    exact absurd hn (by simp)
  | cons c rest ih =>
    intro pal li n hn hpal hprev
    unfold toPFold
    cases hf : firstIdx c pal with
    | some k =>
      cases n with
      | zero =>
        exfalso
        have hk := firstIdx_getD pal k hf
        have hlt := firstIdx_lt pal k hf
        exact hpal (pal.getD k []) (getD_mem_of_lt pal k [] hlt) hk
      | succ n2 =>
        have := ih pal li n2 (by simpa using hn) (fun e he => hpal e he)
          (fun q hq => hprev (q + 1) (by omega))
        simpa using this
    | none =>
      cases n with
      | zero =>
        obtain ⟨ext, he⟩ := toPFold_prefix rest (pal ++ [c]) pal.length
        show firstIdx c (toPFold (pal ++ [c]) pal.length rest).1.1 = some pal.length
        rw [he]
        exact firstIdx_append_of_found ext _ _ (firstIdx_append_self pal hf)
      | succ n2 =>
        have hpal2 : ∀ e ∈ pal ++ [c], e ≠ (c :: rest).getD (n2 + 1) [] := by
          intro e he
          rcases List.mem_append.mp he with h1 | h1
          · exact hpal e h1
          · rw [List.mem_singleton.mp h1]
            exact hprev 0 (by omega)
        have := ih (pal ++ [c]) pal.length n2 (by simpa using hn) hpal2
          (fun q hq => hprev (q + 1) (by omega))
        simpa using this

theorem toPFold_li_lt : ∀ (cs pal : List PColor) (li : Nat), li < pal.length →
    (toPFold pal li cs).1.2 < (toPFold pal li cs).1.1.length := by
  intro cs
  induction cs with
  | nil =>
    intro pal li hli
    exact hli
  | cons c rest ih =>
    intro pal li hli
    unfold toPFold
    cases hf : firstIdx c pal with
    | some k => simpa using ih pal li hli
    | none => simpa using ih (pal ++ [c]) pal.length (by simp)

theorem toPScan_li_lt (chs : List MChan) (N : Nat) (hN : 0 < N) :
    (toPScan chs N).1.2 < (toPScan chs N).1.1.length := by
  unfold toPScan
  cases hc : scanColors chs N with
  | nil =>
    exfalso
    have := congrArg List.length hc
    simp [scanColors] at this
    omega
  | cons c0 cr =>
    show (toPFold [] 0 (c0 :: cr)).1.2 < (toPFold [] 0 (c0 :: cr)).1.1.length
    unfold toPFold
    rw [show firstIdx c0 [] = none from rfl]
    exact toPFold_li_lt cr ([] ++ [c0]) ([] : List PColor).length (by simp)

theorem toPFold_width (L : Nat) : ∀ (cs pal : List PColor) (li : Nat),
    (∀ x ∈ pal, x.length = L) → (∀ x ∈ cs, x.length = L) →
    ∀ x ∈ (toPFold pal li cs).1.1, x.length = L := by
  intro cs
  induction cs with
  | nil => intro pal li hp _ x hx; exact hp x (by simpa [toPFold] using hx)
  | cons c rest ih =>
    intro pal li hp hc x hx
    unfold toPFold at hx
    cases hf : firstIdx c pal with
    | some k =>
      rw [hf] at hx
      exact ih pal li hp (fun y hy => hc y (by simp [hy])) x (by simpa using hx)
    | none =>
      rw [hf] at hx
      refine ih (pal ++ [c]) pal.length ?_ (fun y hy => hc y (by simp [hy])) x
        (by simpa using hx)
      intro y hy
      rcases List.mem_append.mp hy with hy2 | hy2
      · exact hp y hy2
      · rw [List.mem_singleton.mp hy2]
        exact hc c (by simp)

theorem getLastD_eq_getD {α : Type} (l : List α) (d : α) :
    l.getLastD d = l.getD (l.length - 1) d := by
  cases l with
  | nil => rfl
  | cons a t =>
    rw [List.getLastD_eq_getLast?, List.getLast?_eq_getElem?, List.getD_eq_getElem?_getD]

theorem npInterpArange_nat (fp : List ℚ) (k : Nat) (hk : k < fp.length) :
    npInterpArange fp (k : ℚ) = fp.getD k 0 := by
  unfold npInterpArange
  by_cases h0 : (k : ℚ) ≤ 0
  · have hk0 : k = 0 := by exact_mod_cast le_antisymm h0 (by positivity)
    rw [if_pos h0, hk0]
    cases fp with
    | nil => rfl
    | cons a t => rfl
  · rw [if_neg h0]
    by_cases h1 : (fp.length : ℚ) - 1 ≤ (k : ℚ)
    · rw [if_pos h1]
      have h2 : (fp.length : ℚ) ≤ (k : ℚ) + 1 := by linarith
      have h3 : fp.length ≤ k + 1 := by exact_mod_cast h2
      have hk2 : k = fp.length - 1 := by omega
      rw [hk2, getLastD_eq_getD]
    · rw [if_neg h1]
      rw [Int.floor_natCast, Int.toNat_natCast]
      simp

theorem pyGet_lt {α : Type} (l : List α) (p : Nat) (d : α) (hp : p < l.length) :
    pyGet l p = .ok (l.getD p d) := by
  unfold pyGet
  rw [List.get?_eq_getElem?, List.getElem?_eq_getElem hp,
    List.getD_eq_getElem?_getD, List.getElem?_eq_getElem hp]
  rfl

theorem pyIntGet_natCast {α : Type} (l : List α) (k : Nat) (d : α) (hk : k < l.length) :
    pyIntGet l (k : ℤ) = .ok (l.getD k d) := by
  unfold pyIntGet
  rw [if_pos (by positivity), Int.toNat_natCast]
  exact pyGet_lt l k d hk

theorem ratTruncZ_natCast (k : Nat) : ratTruncZ (k : ℚ) = (k : ℤ) := by
  unfold ratTruncZ
  rw [if_pos (by positivity), Int.floor_natCast]

theorem baseMode_nonalpha (m : Mode) (h : isAlpha m = false) : baseMode m = m := by
  revert h
  cases m <;> decide

theorem getD_range_map {α : Type} (F : Nat → α) (n p : Nat) (hp : p < n) (d : α) :
    ((List.range n).map F).getD p d = F p := by
  rw [getD_lt_map F (List.range n) p (by simpa using hp) d 0, getD_lt_range n p hp 0]

theorem convertF_self (fuel : Nat) (img : QImage) (m : Mode) (h : m = img.mode) :
    convertF (fuel + 1) img m = .ok img := by
  rw [convertF_succ]
  unfold convertBody
  rw [if_pos h]

theorem convertF_to_table (fuel : Nat) (img : QImage) (m : Mode)
    (hne : m ≠ img.mode) (hch : img.channels ≠ [])
    (hsh : ¬(img.height = 0 ∧ img.width = 0))
    (h3 : some m ≠ addAlphaM img.mode) (h4 : addAlphaM m ≠ some img.mode)
    (h5 : (isAlpha m && !isAlpha img.mode) = false)
    (h6 : (isAlpha img.mode && !isAlpha m) = false) :
    convertF (fuel + 1) img m = tableDispatch (convertF fuel) img m := by
  rw [convertF_succ]
  unfold convertBody
  rw [if_neg hne, isEmptyChk_of_ne img hch hsh, exc_bind_ok,
    if_neg (by simp : ¬(false = true)), if_neg h3, if_neg h4,
    if_neg (by simp [h5]), if_neg (by simp [h6])]

theorem toP_nonalpha_nofill (img : QImage) (m : Mode) (ha : isAlpha img.mode = false)
    (hch : img.channels ≠ []) (hfill : img.fillValue = none) :
    toP img m = .ok { img with
      mode := m
      channels := [toPChan img.channels (img.height * img.width)]
      fillValue := none
      palette := some (toPScan img.channels (img.height * img.width)).1.1
      secondaryMode := img.mode } := by
  obtain ⟨c0, crest, hc⟩ := List.exists_cons_of_ne_nil hch
  unfold toP
  rw [ha, baseMode_nonalpha _ ha, hfill, hc]
  rfl

theorem toP_nonalpha_fill (img : QImage) (m : Mode) (ha : isAlpha img.mode = false)
    (hch : img.channels ≠ []) (f : List ℚ) (hfill : img.fillValue = some f) :
    toP img m = .ok { img with
      mode := m
      channels := [toPChan img.channels (img.height * img.width)]
      fillValue := some [(((fillRegister (toPScan img.channels (img.height * img.width)).1.1
        (toPScan img.channels (img.height * img.width)).1.2 (f.map some)).2 : ℕ) : ℚ)]
      palette := some (fillRegister (toPScan img.channels (img.height * img.width)).1.1
        (toPScan img.channels (img.height * img.width)).1.2 (f.map some)).1
      secondaryMode := img.mode } := by
  obtain ⟨c0, crest, hc⟩ := List.exists_cons_of_ne_nil hch
  unfold toP
  rw [ha, baseMode_nonalpha _ ha, hfill, hc]
  rfl

theorem fillRegister_prefix (pal : List PColor) (li : Nat) (fcol : PColor) :
    ∃ ext, (fillRegister pal li fcol).1 = pal ++ ext := by
  unfold fillRegister
  cases hf : firstIdx fcol pal with
  | some k => exact ⟨[], by simp⟩
  | none => exact ⟨[fcol], rfl⟩

theorem fillRegister_lt (pal : List PColor) (li : Nat) (fcol : PColor)
    (hli : li < pal.length) :
    (fillRegister pal li fcol).2 < (fillRegister pal li fcol).1.length := by
  unfold fillRegister
  cases hf : firstIdx fcol pal with
  | some k => simpa using hli
  | none => simp

theorem fromPAux_P_nofill (conv : QImage → Mode → Except String QImage) (img : QImage)
    (m : Mode) (hmode : img.mode = .P) (cc : MChan) (ctail : List MChan)
    (hc0 : img.channels = cc :: ctail) (p0 : PColor) (prest : List PColor)
    (hpal : img.palette = some (p0 :: prest))
    (hw : ((p0 :: prest).any (fun col => decide (col.length < p0.length))) = false)
    (hfill : img.fillValue = none) :
    fromPAux conv img m = conv { img with
      mode := img.secondaryMode
      channels := fromPChans (p0 :: prest) cc
      fillValue := none } m := by
  unfold fromPAux
  rw [hmode, hpal, hc0, hfill]
  rw [if_neg (not_not_intro (Or.inl rfl))]
  show (if ((p0 :: prest).any (fun col => decide (col.length < p0.length))) = true
    then (Except.error "IndexError" : Except String QImage) else _) = _
  rw [hw, if_neg (by simp : ¬(false = true))]
  show conv { img with
      mode := img.secondaryMode
      channels := fromPChans (p0 :: prest) cc ++ []
      fillValue := none
      palette := some (p0 :: prest) } m = _
  rw [List.append_nil]

theorem fromPAux_P_fillidx (conv : QImage → Mode → Except String QImage) (img : QImage)
    (m : Mode) (hmode : img.mode = .P) (cc : MChan) (ctail : List MChan)
    (hc0 : img.channels = cc :: ctail) (p0 : PColor) (prest : List PColor)
    (hpal : img.palette = some (p0 :: prest))
    (hw : ((p0 :: prest).any (fun col => decide (col.length < p0.length))) = false)
    (k : Nat) (hfill : img.fillValue = some [(k : ℚ)]) (hk : k < (p0 :: prest).length) :
    fromPAux conv img m = conv { img with
      mode := img.secondaryMode
      channels := fromPChans (p0 :: prest) cc
      fillValue := some (((p0 :: prest).getD k []).map (fun o => o.getD 0)) } m := by
  unfold fromPAux
  rw [hmode, hpal, hc0, hfill]
  rw [if_neg (not_not_intro (Or.inl rfl))]
  show (if ((p0 :: prest).any (fun col => decide (col.length < p0.length))) = true
    then (Except.error "IndexError" : Except String QImage) else _) = _
  rw [hw, if_neg (by simp : ¬(false = true))]
  show ((pyGet [(k : ℚ)] 0 >>= fun f0 =>
      (pyIntGet (p0 :: prest) (ratTruncZ f0)).map
        (fun ent => some (ent.map (fun o => o.getD 0)))) >>= _ : Except String QImage) = _
  rw [pyGet_lt [(k : ℚ)] 0 0 (by simp), exc_bind_ok]
  show ((pyIntGet (p0 :: prest) (ratTruncZ (k : ℚ))).map
      (fun ent => some (ent.map (fun o => o.getD 0))) >>= _ : Except String QImage) = _
  rw [ratTruncZ_natCast, pyIntGet_natCast (p0 :: prest) k [] hk]
  show conv { img with
      mode := img.secondaryMode
      channels := fromPChans (p0 :: prest) cc ++ []
      fillValue := some (((p0 :: prest).getD k []).map (fun o => o.getD 0))
      palette := some (p0 :: prest) } m = _
  rw [List.append_nil]

theorem scanColors_getD (chs : List MChan) (N p : Nat) (hp : p < N) :
    (scanColors chs N).getD p [] = pixColor chs p := by
  unfold scanColors
  exact getD_range_map (pixColor chs) N p hp []

theorem toPChan_length (chs : List MChan) (N : Nat) : (toPChan chs N).length = N := by
  unfold toPChan
  simp

theorem toPChan_getD (chs : List MChan) (N p : Nat) (hp : p < N) :
    (toPChan chs N).getD p ⟨0, false⟩ =
      (⟨(((toPScan chs N).2.getD p 0 : ℕ) : ℚ), (selfmaskList chs).getD p false⟩ : MPix) := by
  unfold toPChan
  exact getD_range_map _ N p hp (⟨0, false⟩ : MPix)

theorem toPScan_ne_nil (chs : List MChan) (N : Nat) (hN : 0 < N) :
    (toPScan chs N).1.1 ≠ [] := by
  unfold toPScan
  cases hc : scanColors chs N with
  | nil =>
    exfalso
    have := congrArg List.length hc
    simp [scanColors] at this
    omega
  | cons c0 cr =>
    show (toPFold [] 0 (c0 :: cr)).1.1 ≠ []
    unfold toPFold
    rw [show firstIdx c0 [] = none from rfl]
    show (toPFold ([] ++ [c0]) ([] : List PColor).length cr).1.1 ≠ []
    obtain ⟨ext, he⟩ := toPFold_prefix cr ([] ++ [c0]) ([] : List PColor).length
    rw [he]
    simp

theorem toP_index_spec (chs : List MChan) (N : Nat) (pal ext : List PColor)
    (hpal : pal = (toPScan chs N).1.1 ++ ext) (p : Nat) (hp : p < N)
    (hfresh : ∀ q, q < p → pixColor chs q ≠ pixColor chs p) :
    ∃ k, firstIdx (pixColor chs p) pal = some k ∧
      (chanGet (toPChan chs N) p).data = (k : ℚ) ∧ k < (toPScan chs N).1.1.length := by
  have hfind : firstIdx (pixColor chs p) (toPScan chs N).1.1 =
      some ((toPScan chs N).2.getD p 0) := by
    have h1 := toPFold_fresh (scanColors chs N) [] 0 p
      (by simpa [scanColors] using hp)
      (by intro e he; exact absurd he (List.not_mem_nil e))
      (by
        intro q hq
        rw [scanColors_getD chs N q (by omega), scanColors_getD chs N p hp]
        exact hfresh q hq)
    rwa [scanColors_getD chs N p hp] at h1
  refine ⟨(toPScan chs N).2.getD p 0, ?_, ?_, firstIdx_lt _ _ hfind⟩
  · rw [hpal]
    exact firstIdx_append_of_found ext _ _ hfind
  · unfold chanGet
    rw [toPChan_getD chs N p hp]

theorem fromP_value (chs : List MChan) (N : Nat) (pal ext : List PColor)
    (hpal : pal = (toPScan chs N).1.1 ++ ext) (L : Nat) (hL : chs.length = L)
    (col0 : PColor) (prest : List PColor) (hcons : pal = col0 :: prest)
    (hww : ∀ x ∈ pal, x.length = L)
    (i p : Nat) (hi : i < L) (hp : p < N)
    (hfresh : ∀ q, q < p → pixColor chs q ≠ pixColor chs p)
    (hvalid : ∀ c ∈ chs, (chanGet c p).mask = false) :
    (chanGet ((fromPChans pal (toPChan chs N)).getD i []) p).data =
      (chanGet (chs.getD i []) p).data := by
  obtain ⟨k, hfindpal, hdata, hklt⟩ := toP_index_spec chs N pal ext hpal p hp hfresh
  have hkpal : k < pal.length := by
    rw [hpal, List.length_append]
    omega
  have hheadw : (pal.headD []).length = L := by
    rw [hcons]
    exact hww col0 (by rw [hcons]; simp)
  unfold fromPChans
  rw [getD_range_map _ (pal.headD []).length i (by rw [hheadw]; exact hi) []]
  unfold chanGet
  rw [getD_lt_map _ (toPChan chs N) p (by rw [toPChan_length]; exact hp)
    (⟨0, false⟩ : MPix) (⟨0, false⟩ : MPix)]
  show npInterpArange (fromPCdf pal i) ((toPChan chs N).getD p ⟨0, false⟩).data = _
  rw [toPChan_getD chs N p hp]
  have hk2 : (((toPScan chs N).2.getD p 0 : ℕ) : ℚ) = ((k : ℕ) : ℚ) := by
    have h2 := hdata
    unfold chanGet at h2
    rw [toPChan_getD chs N p hp] at h2
    exact h2
  show npInterpArange (fromPCdf pal i) (((toPScan chs N).2.getD p 0 : ℕ) : ℚ) = _
  rw [hk2]
  rw [npInterpArange_nat (fromPCdf pal i) k (by unfold fromPCdf; simpa using hkpal)]
  unfold fromPCdf
  rw [getD_lt_map _ pal k hkpal 0 []]
  rw [firstIdx_getD pal k hfindpal]
  unfold pixColor
  rw [getD_lt_map _ chs i (by rw [hL]; exact hi) none []]
  have hmask : (chanGet (chs.getD i []) p).mask = false :=
    hvalid _ (getD_mem_of_lt chs i [] (by rw [hL]; exact hi))
  rw [if_neg (by rw [hmask]; exact Bool.false_ne_true)]
  rfl

/-- C2 counterexample, in two parts.  First, on an LA image — an
alpha-carrying direct mode — with one valid pixel of value 3 and alpha 1/2,
convert("P") drops the alpha channel before quantization, and the round trip
back to LA returns alpha 1 (the all-ones channel the P → PA move inserts),
not 1/2, so the round trip does not reproduce every channel value at the
valid pixel.  Second, on an L image with pixel values 5, 7, 5, convert("P")
stores index 1 at the third pixel — the stale index of the most recently
appended palette entry (the `next(...)` result is discarded) — although the
first palette entry equal to its color has index 0, so the claimed
first-match index assignment fails as soon as a color repeats (and the round
trip then returns 7 where the original had 5). -/
theorem C2_palette_roundtrip_counterexample :
    (((convertF 10 ⟨.LA, [[⟨3, false⟩], [⟨mkRat 1 2, false⟩]], 1, 1, none, none, .RGB⟩ .P).bind
      (fun i => convertF 10 i .LA)) =
      .ok ⟨.LA, [[⟨3, false⟩], [⟨1, false⟩]], 1, 1, none, some [[some 3]], .L⟩ ∧
    (1 : ℚ) ≠ mkRat 1 2) ∧
    (convertF 10 ⟨.L, [[⟨5, false⟩, ⟨7, false⟩, ⟨5, false⟩]], 1, 3, none, none, .RGB⟩ .P =
      .ok ⟨.P, [[⟨((0 : ℕ) : ℚ), false⟩, ⟨((1 : ℕ) : ℚ), false⟩, ⟨((1 : ℕ) : ℚ), false⟩]],
        1, 3, none, some [[some 5], [some 7]], .L⟩ ∧
    firstIdx (pixColor [[⟨5, false⟩, ⟨7, false⟩, ⟨5, false⟩]] 2)
      [[some 5], [some 7]] = some 0 ∧
    (1 : ℕ) ≠ 0) :=
  ⟨⟨rfl, by decide⟩, rfl, rfl, by decide⟩

/-- C2 (amended): for a non-empty image in one of the non-alpha direct modes
L, RGB or YCbCr (on the alpha modes the round trip loses the alpha channel),
with fill value absent or in lockstep with the channels, `convert("P")`
succeeds, and every pixel whose color first occurs at that pixel is assigned
the index of the first palette entry exactly equal to its color tuple; a
subsequent convert back to the original mode succeeds and reproduces every
channel value exactly at every such first-occurrence pixel position where
all channels were valid before quantization.  (A pixel repeating an earlier
color instead receives the stale index of the most recently appended palette
entry — the source discards the `next(...)` lookup's result — see the
counterexample.) -/
theorem C2_palette_roundtrip (img : QImage) (M : Mode)
    (hM : img.mode = M) (hMd : M = .L ∨ M = .RGB ∨ M = .YCbCr)
    (hch : img.channels ≠ [])
    (hN : 0 < img.height * img.width)
    (hfv : img.fillValue = none ∨
      ∃ f, img.fillValue = some f ∧ f.length = img.channels.length) :
    ∃ imgP pal, convert img .P = .ok imgP ∧ imgP.palette = some pal ∧
      (∀ p, p < img.height * img.width →
        (∀ q, q < p → pixColor img.channels q ≠ pixColor img.channels p) →
        ∃ k, firstIdx (pixColor img.channels p) pal = some k ∧
          (chanGet (imgP.channels.getD 0 []) p).data = (k : ℚ)) ∧
      ∃ img2, convert imgP M = .ok img2 ∧ img2.mode = M ∧
        img2.channels.length = img.channels.length ∧
        ∀ i p, i < img.channels.length → p < img.height * img.width →
          (∀ q, q < p → pixColor img.channels q ≠ pixColor img.channels p) →
          (∀ c ∈ img.channels, (chanGet c p).mask = false) →
          (chanGet (img2.channels.getD i []) p).data =
            (chanGet (img.channels.getD i []) p).data := by
  have hsh : ¬(img.height = 0 ∧ img.width = 0) := by
    rintro ⟨h1, h2⟩
    rw [h1] at hN
    simp at hN
  have ha : isAlpha img.mode = false := by
    rw [hM]; rcases hMd with h | h | h <;> (subst h; decide)
  have hPne : (Mode.P : Mode) ≠ img.mode := by
    rw [hM]; rcases hMd with h | h | h <;> (subst h; decide)
  have h3 : some (Mode.P) ≠ addAlphaM img.mode := by
    rw [hM]; rcases hMd with h | h | h <;> (subst h; decide)
  have h4 : addAlphaM .P ≠ some img.mode := by
    rw [hM]; rcases hMd with h | h | h <;> (subst h; decide)
  have h5 : (isAlpha .P && !isAlpha img.mode) = false := rfl
  have h6 : (isAlpha img.mode && !isAlpha .P) = false := by
    rw [ha]; rfl
  have hstep1 : convert img .P = tableDispatch (convertF 9) img .P :=
    convertF_to_table 9 img .P hPne hch hsh h3 h4 h5 h6
  have htab1 : tableDispatch (convertF 9) img .P = toP img .P := by
    rcases hMd with h | h | h <;> (unfold tableDispatch; rw [hM, h])
  have hscw : ∀ x ∈ scanColors img.channels (img.height * img.width),
      x.length = img.channels.length := by
    intro x hx
    unfold scanColors at hx
    obtain ⟨p, _, hpe⟩ := List.mem_map.mp hx
    rw [← hpe]
    unfold pixColor
    simp
  have hw0 : ∀ x ∈ (toPScan img.channels (img.height * img.width)).1.1,
      x.length = img.channels.length := by
    unfold toPScan
    exact toPFold_width img.channels.length
      (scanColors img.channels (img.height * img.width)) [] 0 (by simp) hscw
  have hMP : M ≠ Mode.P := by rcases hMd with h | h | h <;> (subst h; decide)
  have h3b : some M ≠ addAlphaM Mode.P := by
    rcases hMd with h | h | h <;> (subst h; decide)
  have h4b : addAlphaM M ≠ some Mode.P := by
    rcases hMd with h | h | h <;> (subst h; decide)
  have h5b : (isAlpha M && !isAlpha Mode.P) = false := by
    rcases hMd with h | h | h <;> (subst h; decide)
  rcases hfv with hf | ⟨f, hf, hfl⟩
  · obtain ⟨p0, prest, hcons⟩ :=
      List.exists_cons_of_ne_nil (toPScan_ne_nil img.channels (img.height * img.width) hN)
    have hp0L : p0.length = img.channels.length :=
      hw0 p0 (by rw [hcons]; exact List.mem_cons_self p0 prest)
    have hany : ((p0 :: prest).any (fun col => decide (col.length < p0.length))) = false := by
      rw [List.any_eq_false]
      intro x hx
      have hxL : x.length = img.channels.length := hw0 x (by rw [hcons]; exact hx)
      simp [hxL, hp0L]
    have hA : convert img .P = .ok { img with
        mode := Mode.P
        channels := [toPChan img.channels (img.height * img.width)]
        fillValue := none
        palette := some (toPScan img.channels (img.height * img.width)).1.1
        secondaryMode := img.mode } := by
      rw [hstep1, htab1]
      exact toP_nonalpha_nofill img .P ha hch hf
    have hD : convert ({ img with
        mode := Mode.P
        channels := [toPChan img.channels (img.height * img.width)]
        fillValue := none
        palette := some (toPScan img.channels (img.height * img.width)).1.1
        secondaryMode := img.mode } : QImage) M = .ok { img with
        mode := img.mode
        channels := fromPChans (p0 :: prest)
          (toPChan img.channels (img.height * img.width))
        fillValue := none
        palette := some (toPScan img.channels (img.height * img.width)).1.1
        secondaryMode := img.mode } := by
      refine Eq.trans (convertF_to_table 9 _ M ?_ ?_ ?_ ?_ ?_ ?_ ?_) ?_
      · exact hMP
      · exact List.cons_ne_nil _ _
      · exact hsh
      · exact h3b
      · exact h4b
      · exact h5b
      · exact rfl
      refine Eq.trans (fromPAux_P_nofill (convertF 9) _ M ?_
        (toPChan img.channels (img.height * img.width)) [] ?_ p0 prest ?_ hany ?_) ?_
      · exact rfl
      · exact rfl
      · exact congrArg some hcons
      · exact rfl
      exact convertF_self 8 _ M hM.symm
    refine ⟨_, _, hA, rfl, ?_, _, hD, hM, ?_, ?_⟩
    · intro p hp hfresh
      obtain ⟨k, h1, h2, _⟩ := toP_index_spec img.channels (img.height * img.width)
        (toPScan img.channels (img.height * img.width)).1.1 [] (by simp) p hp hfresh
      exact ⟨k, h1, h2⟩
    · show (fromPChans (p0 :: prest)
          (toPChan img.channels (img.height * img.width))).length = img.channels.length
      unfold fromPChans
      simp [hp0L]
    · intro i p hi hp hfresh hvalid
      exact fromP_value img.channels (img.height * img.width) (p0 :: prest) []
        (by rw [List.append_nil]; exact hcons.symm) img.channels.length rfl p0 prest rfl
        (fun x hx => hw0 x (by rw [hcons]; exact hx)) i p hi hp hfresh hvalid
  · have hw1 : ∀ x ∈ (fillRegister (toPScan img.channels (img.height * img.width)).1.1
        (toPScan img.channels (img.height * img.width)).1.2 (f.map some)).1,
        x.length = img.channels.length := by
      intro x hx
      unfold fillRegister at hx
      cases hfi : firstIdx (f.map some)
          (toPScan img.channels (img.height * img.width)).1.1 with
      | some k2 =>
        rw [hfi] at hx
        exact hw0 x hx
      | none =>
        rw [hfi] at hx
        rcases List.mem_append.mp hx with h | h
        · exact hw0 x h
        · rw [List.mem_singleton.mp h, List.length_map]
          exact hfl
    obtain ⟨ext, hext⟩ := fillRegister_prefix
      (toPScan img.channels (img.height * img.width)).1.1
      (toPScan img.channels (img.height * img.width)).1.2 (f.map some)
    have hpne : (fillRegister (toPScan img.channels (img.height * img.width)).1.1
        (toPScan img.channels (img.height * img.width)).1.2 (f.map some)).1 ≠ [] := by
      rw [hext]
      intro hc
      exact toPScan_ne_nil img.channels (img.height * img.width) hN
        (List.append_eq_nil.mp hc).1
    obtain ⟨p0, prest, hcons⟩ := List.exists_cons_of_ne_nil hpne
    have hp0L : p0.length = img.channels.length :=
      hw1 p0 (by rw [hcons]; exact List.mem_cons_self p0 prest)
    have hany : ((p0 :: prest).any (fun col => decide (col.length < p0.length))) = false := by
      rw [List.any_eq_false]
      intro x hx
      have hxL : x.length = img.channels.length := hw1 x (by rw [hcons]; exact hx)
      simp [hxL, hp0L]
    have hA : convert img .P = .ok { img with
        mode := Mode.P
        channels := [toPChan img.channels (img.height * img.width)]
        fillValue := some [(((fillRegister
          (toPScan img.channels (img.height * img.width)).1.1
          (toPScan img.channels (img.height * img.width)).1.2 (f.map some)).2 : ℕ) : ℚ)]
        palette := some (fillRegister
          (toPScan img.channels (img.height * img.width)).1.1
          (toPScan img.channels (img.height * img.width)).1.2 (f.map some)).1
        secondaryMode := img.mode } := by
      rw [hstep1, htab1]
      exact toP_nonalpha_fill img .P ha hch f hf
    have hD : convert ({ img with
        mode := Mode.P
        channels := [toPChan img.channels (img.height * img.width)]
        fillValue := some [(((fillRegister
          (toPScan img.channels (img.height * img.width)).1.1
          (toPScan img.channels (img.height * img.width)).1.2 (f.map some)).2 : ℕ) : ℚ)]
        palette := some (fillRegister
          (toPScan img.channels (img.height * img.width)).1.1
          (toPScan img.channels (img.height * img.width)).1.2 (f.map some)).1
        secondaryMode := img.mode } : QImage) M = .ok { img with
        mode := img.mode
        channels := fromPChans (p0 :: prest)
          (toPChan img.channels (img.height * img.width))
        fillValue := some (((p0 :: prest).getD
          (fillRegister (toPScan img.channels (img.height * img.width)).1.1
            (toPScan img.channels (img.height * img.width)).1.2 (f.map some)).2 []).map
          (fun o => o.getD 0))
        palette := some (fillRegister
          (toPScan img.channels (img.height * img.width)).1.1
          (toPScan img.channels (img.height * img.width)).1.2 (f.map some)).1
        secondaryMode := img.mode } := by
      refine Eq.trans (convertF_to_table 9 _ M ?_ ?_ ?_ ?_ ?_ ?_ ?_) ?_
      · exact hMP
      · exact List.cons_ne_nil _ _
      · exact hsh
      · exact h3b
      · exact h4b
      · exact h5b
      · exact rfl
      refine Eq.trans (fromPAux_P_fillidx (convertF 9) _ M ?_
        (toPChan img.channels (img.height * img.width)) [] ?_ p0 prest ?_ hany
        (fillRegister (toPScan img.channels (img.height * img.width)).1.1
          (toPScan img.channels (img.height * img.width)).1.2 (f.map some)).2
        ?_ ?_) ?_
      · exact rfl
      · exact rfl
      · exact congrArg some hcons
      · exact rfl
      · rw [← hcons]
        exact fillRegister_lt (toPScan img.channels (img.height * img.width)).1.1
          (toPScan img.channels (img.height * img.width)).1.2 (f.map some)
          (toPScan_li_lt img.channels (img.height * img.width) hN)
      exact convertF_self 8 _ M hM.symm
    refine ⟨_, _, hA, rfl, ?_, _, hD, hM, ?_, ?_⟩
    · intro p hp hfresh
      obtain ⟨k, h1, h2, _⟩ := toP_index_spec img.channels (img.height * img.width)
        (fillRegister (toPScan img.channels (img.height * img.width)).1.1
          (toPScan img.channels (img.height * img.width)).1.2 (f.map some)).1
        ext hext p hp hfresh
      exact ⟨k, h1, h2⟩
    · show (fromPChans (p0 :: prest)
          (toPChan img.channels (img.height * img.width))).length = img.channels.length
      unfold fromPChans
      simp [hp0L]
    · intro i p hi hp hfresh hvalid
      exact fromP_value img.channels (img.height * img.width) (p0 :: prest) ext
        (by rw [← hcons]; exact hext) img.channels.length rfl p0 prest rfl
        (fun x hx => hw1 x (by rw [hcons]; exact hx)) i p hi hp hfresh hvalid

/-- Witness for C2: a concrete valid 1×2 RGB image with a lockstep fill
value satisfies the hypotheses, and the palette round trip through mode P
holds for it. -/
theorem C2_palette_roundtrip_witness :
    (0 : Nat) < 1 * 2 ∧
    (∃ imgP pal,
      convert ⟨.RGB, [[⟨1, false⟩, ⟨2, false⟩], [⟨3, false⟩, ⟨3, false⟩],
        [⟨5, false⟩, ⟨0, false⟩]], 1, 2, some [1, 3, 5], none, .RGB⟩ .P = .ok imgP ∧
      imgP.palette = some pal ∧
      (∀ p, p < 1 * 2 →
        (∀ q, q < p → pixColor [[⟨1, false⟩, ⟨2, false⟩], [⟨3, false⟩, ⟨3, false⟩],
          [⟨5, false⟩, ⟨0, false⟩]] q ≠ pixColor [[⟨1, false⟩, ⟨2, false⟩],
          [⟨3, false⟩, ⟨3, false⟩], [⟨5, false⟩, ⟨0, false⟩]] p) →
        ∃ k, firstIdx (pixColor [[⟨1, false⟩, ⟨2, false⟩], [⟨3, false⟩, ⟨3, false⟩],
          [⟨5, false⟩, ⟨0, false⟩]] p) pal = some k ∧
          (chanGet (imgP.channels.getD 0 []) p).data = (k : ℚ)) ∧
      ∃ img2, convert imgP .RGB = .ok img2 ∧ img2.mode = .RGB ∧
        img2.channels.length = 3 ∧
        ∀ i p, i < 3 → p < 1 * 2 →
          (∀ q, q < p → pixColor [[⟨1, false⟩, ⟨2, false⟩], [⟨3, false⟩, ⟨3, false⟩],
            [⟨5, false⟩, ⟨0, false⟩]] q ≠ pixColor [[⟨1, false⟩, ⟨2, false⟩],
            [⟨3, false⟩, ⟨3, false⟩], [⟨5, false⟩, ⟨0, false⟩]] p) →
          (∀ c ∈ [[⟨1, false⟩, ⟨2, false⟩], [⟨3, false⟩, ⟨3, false⟩],
            [⟨5, false⟩, ⟨0, false⟩]], (chanGet c p).mask = false) →
          (chanGet (img2.channels.getD i []) p).data =
            (chanGet (([[⟨1, false⟩, ⟨2, false⟩], [⟨3, false⟩, ⟨3, false⟩],
              [⟨5, false⟩, ⟨0, false⟩]] : List MChan).getD i []) p).data) :=
  ⟨by decide,
    C2_palette_roundtrip
      ⟨.RGB, [[⟨1, false⟩, ⟨2, false⟩], [⟨3, false⟩, ⟨3, false⟩],
        [⟨5, false⟩, ⟨0, false⟩]], 1, 2, some [1, 3, 5], none, .RGB⟩ .RGB
      rfl (Or.inr (Or.inl rfl)) (by decide) (by decide)
      (Or.inr ⟨[1, 3, 5], rfl, rfl⟩)⟩


/-! Inversion helpers for the constructor / convert invariant (claim C6). -/

theorem pyGet_ok {α : Type} (l : List α) (i : Nat) (a : α) (h : pyGet l i = .ok a) :
    i < l.length ∧ a ∈ l := by
  unfold pyGet at h
  cases hg : l.get? i with
  | none =>
    rw [hg] at h
    exact Except.noConfusion h
  | some b =>
    rw [hg] at h
    injection h with h2
    subst h2
    constructor
    · by_contra hlt
      rw [List.get?_eq_none.mpr (Nat.le_of_not_lt hlt)] at hg
      exact Option.noConfusion hg
    · exact List.get?_mem hg

theorem pyIntGet_ok {α : Type} (l : List α) (i : ℤ) (a : α) (h : pyIntGet l i = .ok a) :
    a ∈ l := by
  unfold pyIntGet at h
  split at h
  · exact (pyGet_ok _ _ _ h).2
  · split at h
    · exact (pyGet_ok _ _ _ h).2
    · exact Except.noConfusion h

theorem isEmptyChk_ok_true (img : QImage) (h : isEmptyChk img = .ok true) :
    img.channels = [] ∧ img.height = 0 ∧ img.width = 0 := by
  simp only [isEmptyChk] at h
  split at h
  · exact Except.noConfusion h
  · split at h
    · exact Except.noConfusion h
    · injection h with h2
      simp only [Bool.and_eq_true, beq_iff_eq] at h2
      refine ⟨?_, h2.2.1, h2.2.2⟩
      cases hx : img.channels with
      | nil => rfl
      | cons a t =>
        rw [hx] at h2
        exact Bool.noConfusion h2.1

theorem isEmptyChk_ok_false (img : QImage) (h : isEmptyChk img = .ok false) :
    img.channels ≠ [] := by
  intro hc
  simp only [isEmptyChk, hc, List.isEmpty_nil, Bool.true_and, Bool.false_and] at h
  split at h
  · exact Except.noConfusion h
  · rename_i hg
    injection h with h2
    rw [h2] at hg
    exact hg rfl

theorem one_le_impliedChannels (mo : Mode) : 1 ≤ impliedChannels mo := by
  cases mo <;> decide

theorem rgb2ycbcrIm_good (img : QImage) (m : Mode) (img2 : QImage)
    (himp : impliedChannels m = impliedChannels img.mode)
    (hmP : m ≠ .P) (hmPA : m ≠ .PA)
    (hcl : img.channels.length = impliedChannels img.mode)
    (hfc : ∀ f, img.fillValue = some f → f.length = img.channels.length)
    (h : rgb2ycbcrIm img m = .ok img2) : GoodImage img2 := by
  unfold rgb2ycbcrIm at h
  split at h
  · exact Except.noConfusion h
  split at h
  case _ c0 c1 c2 rest heq =>
    have hlen : img.channels.length = rest.length + 3 := by
      rw [heq]
      simp
    split at h
    case _ hfv =>
      injection h with h2
      subst h2
      right
      refine ⟨?_, ?_, ?_⟩
      · simp only [List.length_cons]
        omega
      · intro f hf
        exact Option.noConfusion hf
      · intro hP
        rcases hP with hp | hp
        · exact absurd hp hmP
        · exact absurd hp hmPA
    case _ f hfv =>
      cases hp0 : pyGet f 0 with
      | error e =>
        rw [hp0] at h
        exact Except.noConfusion h
      | ok f0 =>
        rw [hp0, exc_bind_ok] at h
        cases hp1 : pyGet f 1 with
        | error e =>
          rw [hp1] at h
          exact Except.noConfusion h
        | ok f1 =>
          rw [hp1, exc_bind_ok] at h
          cases hp2 : pyGet f 2 with
          | error e =>
            rw [hp2] at h
            exact Except.noConfusion h
          | ok f2v =>
            rw [hp2, exc_bind_ok] at h
            injection h with h2
            subst h2
            have hf3 : 2 < f.length := (pyGet_ok f 2 f2v hp2).1
            have hfl : f.length = img.channels.length := hfc f hfv
            right
            refine ⟨?_, ?_, ?_⟩
            · simp only [List.length_cons]
              omega
            · intro f2 hf2
              injection hf2 with hf2e
              rw [← hf2e]
              simp only [List.length_append, List.length_cons, List.length_drop,
                List.length_nil]
              omega
            · intro hP
              rcases hP with hp | hp
              · exact absurd hp hmP
              · exact absurd hp hmPA
  case _ =>
    exact Except.noConfusion h

theorem ycbcr2rgbIm_good (img : QImage) (m : Mode) (img2 : QImage)
    (himp : impliedChannels m = impliedChannels img.mode)
    (hmP : m ≠ .P) (hmPA : m ≠ .PA)
    (hcl : img.channels.length = impliedChannels img.mode)
    (hfc : ∀ f, img.fillValue = some f → f.length = img.channels.length)
    (h : ycbcr2rgbIm img m = .ok img2) : GoodImage img2 := by
  unfold ycbcr2rgbIm at h
  split at h
  · exact Except.noConfusion h
  split at h
  case _ c0 c1 c2 rest heq =>
    have hlen : img.channels.length = rest.length + 3 := by
      rw [heq]
      simp
    split at h
    case _ hfv =>
      injection h with h2
      subst h2
      right
      refine ⟨?_, ?_, ?_⟩
      · simp only [List.length_cons]
        omega
      · intro f hf
        exact Option.noConfusion hf
      · intro hP
        rcases hP with hp | hp
        · exact absurd hp hmP
        · exact absurd hp hmPA
    case _ f hfv =>
      cases hp0 : pyGet f 0 with
      | error e =>
        rw [hp0] at h
        exact Except.noConfusion h
      | ok f0 =>
        rw [hp0, exc_bind_ok] at h
        cases hp1 : pyGet f 1 with
        | error e =>
          rw [hp1] at h
          exact Except.noConfusion h
        | ok f1 =>
          rw [hp1, exc_bind_ok] at h
          cases hp2 : pyGet f 2 with
          | error e =>
            rw [hp2] at h
            exact Except.noConfusion h
          | ok f2v =>
            rw [hp2, exc_bind_ok] at h
            injection h with h2
            subst h2
            have hf3 : 2 < f.length := (pyGet_ok f 2 f2v hp2).1
            have hfl : f.length = img.channels.length := hfc f hfv
            right
            refine ⟨?_, ?_, ?_⟩
            · simp only [List.length_cons]
              omega
            · intro f2 hf2
              injection hf2 with hf2e
              rw [← hf2e]
              simp only [List.length_append, List.length_cons, List.length_drop,
                List.length_nil]
              omega
            · intro hP
              rcases hP with hp | hp
              · exact absurd hp hmP
              · exact absurd hp hmPA
  case _ =>
    exact Except.noConfusion h

theorem rgb2lIm_good (img : QImage) (m : Mode) (img2 : QImage)
    (himp : impliedChannels m + 2 = impliedChannels img.mode)
    (hmP : m ≠ .P) (hmPA : m ≠ .PA)
    (hcl : img.channels.length = impliedChannels img.mode)
    (hfc : ∀ f, img.fillValue = some f → f.length = img.channels.length)
    (h : rgb2lIm img m = .ok img2) : GoodImage img2 := by
  unfold rgb2lIm at h
  split at h
  · exact Except.noConfusion h
  split at h
  case _ c0 c1 c2 rest heq =>
    have hlen : img.channels.length = rest.length + 3 := by
      rw [heq]
      simp
    split at h
    case _ hfv =>
      injection h with h2
      subst h2
      right
      refine ⟨?_, ?_, ?_⟩
      · simp only [List.length_append, List.length_cons, List.length_nil]
        omega
      · intro f hf
        exact Option.noConfusion hf
      · intro hP
        rcases hP with hp | hp
        · exact absurd hp hmP
        · exact absurd hp hmPA
    case _ f hfv =>
      cases hp0 : pyGet f 0 with
      | error e =>
        rw [hp0] at h
        exact Except.noConfusion h
      | ok f0 =>
        rw [hp0, exc_bind_ok] at h
        cases hp1 : pyGet f 1 with
        | error e =>
          rw [hp1] at h
          exact Except.noConfusion h
        | ok f1 =>
          rw [hp1, exc_bind_ok] at h
          cases hp2 : pyGet f 2 with
          | error e =>
            rw [hp2] at h
            exact Except.noConfusion h
          | ok f2v =>
            rw [hp2, exc_bind_ok] at h
            injection h with h2
            subst h2
            have hf3 : 2 < f.length := (pyGet_ok f 2 f2v hp2).1
            have hfl : f.length = img.channels.length := hfc f hfv
            right
            refine ⟨?_, ?_, ?_⟩
            · simp only [List.length_append, List.length_cons, List.length_nil]
              omega
            · intro f2 hf2
              injection hf2 with hf2e
              rw [← hf2e]
              simp only [List.length_append, List.length_cons, List.length_drop,
                List.length_nil]
              omega
            · intro hP
              rcases hP with hp | hp
              · exact absurd hp hmP
              · exact absurd hp hmPA
  case _ =>
    exact Except.noConfusion h

theorem ycbcr2lIm_good (img : QImage) (m : Mode) (img2 : QImage)
    (himp : impliedChannels m + 2 = impliedChannels img.mode)
    (hmP : m ≠ .P) (hmPA : m ≠ .PA)
    (hcl : img.channels.length = impliedChannels img.mode)
    (hfc : ∀ f, img.fillValue = some f → f.length = img.channels.length)
    (h : ycbcr2lIm img m = .ok img2) : GoodImage img2 := by
  have himgl : 3 ≤ img.channels.length := by
    have := one_le_impliedChannels m
    omega
  unfold ycbcr2lIm at h
  split at h
  · exact Except.noConfusion h
  split at h
  case _ c0 rest heq =>
    split at h
    case _ hfv =>
      injection h with h2
      subst h2
      right
      refine ⟨?_, ?_, ?_⟩
      · simp only [List.length_append, List.length_cons, List.length_nil,
          List.length_drop]
        omega
      · intro f hf
        exact Option.noConfusion hf
      · intro hP
        rcases hP with hp | hp
        · exact absurd hp hmP
        · exact absurd hp hmPA
    case _ f hfv =>
      cases hp0 : pyGet f 0 with
      | error e =>
        rw [hp0] at h
        exact Except.noConfusion h
      | ok f0 =>
        rw [hp0] at h
        injection h with h2
        subst h2
        have hf1 : 0 < f.length := (pyGet_ok f 0 f0 hp0).1
        have hfl : f.length = img.channels.length := hfc f hfv
        right
        refine ⟨?_, ?_, ?_⟩
        · simp only [List.length_append, List.length_cons, List.length_nil,
            List.length_drop]
          omega
        · intro f2 hf2
          injection hf2 with hf2e
          rw [← hf2e]
          simp only [List.length_append, List.length_cons, List.length_drop,
            List.length_nil]
          omega
        · intro hP
          rcases hP with hp | hp
          · exact absurd hp hmP
          · exact absurd hp hmPA
  case _ =>
    exact Except.noConfusion h

theorem l2ycbcrIm_good (img : QImage) (m : Mode) (img2 : QImage)
    (himp : impliedChannels m = impliedChannels img.mode + 2)
    (hmP : m ≠ .P) (hmPA : m ≠ .PA)
    (hcl : img.channels.length = impliedChannels img.mode)
    (hfc : ∀ f, img.fillValue = some f → f.length = img.channels.length)
    (h : l2ycbcrIm img m = .ok img2) : GoodImage img2 := by
  unfold l2ycbcrIm at h
  split at h
  · exact Except.noConfusion h
  split at h
  case _ c0 rest heq =>
    have himgl : 1 ≤ img.channels.length := by
      rw [heq]
      simp
    split at h
    case _ hfv =>
      injection h with h2
      subst h2
      right
      refine ⟨?_, ?_, ?_⟩
      · simp only [List.length_append, List.length_cons, List.length_nil,
          List.length_drop]
        omega
      · intro f hf
        exact Option.noConfusion hf
      · intro hP
        rcases hP with hp | hp
        · exact absurd hp hmP
        · exact absurd hp hmPA
    case _ f hfv =>
      cases hp0 : pyGet f 0 with
      | error e =>
        rw [hp0] at h
        exact Except.noConfusion h
      | ok f0 =>
        rw [hp0] at h
        injection h with h2
        subst h2
        have hf1 : 0 < f.length := (pyGet_ok f 0 f0 hp0).1
        have hfl : f.length = img.channels.length := hfc f hfv
        right
        refine ⟨?_, ?_, ?_⟩
        · simp only [List.length_append, List.length_cons, List.length_nil,
            List.length_drop]
          omega
        · intro f2 hf2
          injection hf2 with hf2e
          rw [← hf2e]
          simp only [List.length_append, List.length_cons, List.length_drop,
            List.length_nil]
          omega
        · intro hP
          rcases hP with hp | hp
          · exact absurd hp hmP
          · exact absurd hp hmPA
  case _ =>
    exact Except.noConfusion h

theorem l2rgbIm_good (img : QImage) (m : Mode) (img2 : QImage)
    (himp : impliedChannels m = impliedChannels img.mode + 2)
    (hmP : m ≠ .P) (hmPA : m ≠ .PA)
    (hcl : img.channels.length = impliedChannels img.mode)
    (hfc : ∀ f, img.fillValue = some f → f.length = img.channels.length)
    (h : l2rgbIm img m = .ok img2) : GoodImage img2 := by
  unfold l2rgbIm at h
  split at h
  · exact Except.noConfusion h
  split at h
  case _ c0 rest heq =>
    have himgl : 1 ≤ img.channels.length := by
      rw [heq]
      simp
    split at h
    case _ hla =>
      dsimp only [] at h
      cases hg1 : pyGet (img.channels ++ [c0, c0]) 1 with
      | error e =>
        rw [hg1] at h
        exact Except.noConfusion h
      | ok a =>
        rw [hg1, exc_bind_ok] at h
        cases hg3 : pyGet (img.channels ++ [c0, c0]) 3 with
        | error e =>
          rw [hg3] at h
          exact Except.noConfusion h
        | ok b =>
          rw [hg3, exc_bind_ok] at h
          rw [exc_bind_ok] at h
          injection h with h2
          subst h2
          right
          refine ⟨?_, ?_, ?_⟩
          · simp only [List.length_set, List.length_append, List.length_cons,
              List.length_nil]
            omega
          · intro f2 hf2
            cases hfv : img.fillValue with
            | none =>
              rw [hfv] at hf2
              exact Option.noConfusion hf2
            | some f =>
              rw [hfv] at hf2
              injection hf2 with hf2e
              rw [← hf2e]
              have hfl : f.length = img.channels.length := hfc f hfv
              simp only [List.length_set, List.length_append, List.length_take,
                List.length_drop, List.length_cons, List.length_nil]
              omega
          · intro hP
            rcases hP with hp | hp
            · exact absurd hp hmP
            · exact absurd hp hmPA
    case _ hla =>
      dsimp only [] at h
      rw [exc_bind_ok] at h
      injection h with h2
      subst h2
      right
      refine ⟨?_, ?_, ?_⟩
      · simp only [List.length_append, List.length_cons, List.length_nil]
        omega
      · intro f2 hf2
        cases hfv : img.fillValue with
        | none =>
          rw [hfv] at hf2
          exact Option.noConfusion hf2
        | some f =>
          rw [hfv] at hf2
          injection hf2 with hf2e
          rw [← hf2e]
          have hfl : f.length = img.channels.length := hfc f hfv
          simp only [List.length_append, List.length_take, List.length_drop,
            List.length_cons, List.length_nil]
          omega
      · intro hP
        rcases hP with hp | hp
        · exact absurd hp hmP
        · exact absurd hp hmPA
  case _ =>
    exact Except.noConfusion h

theorem scanColors_width (chs : List MChan) (N : Nat) :
    ∀ x ∈ scanColors chs N, x.length = chs.length := by
  intro x hx
  unfold scanColors at hx
  obtain ⟨p, _, hpe⟩ := List.mem_map.mp hx
  rw [← hpe]
  unfold pixColor
  simp

theorem toPScan_width (chs : List MChan) (N : Nat) :
    ∀ x ∈ (toPScan chs N).1.1, x.length = chs.length := by
  unfold toPScan
  exact toPFold_width chs.length (scanColors chs N) [] 0 (by simp) (scanColors_width chs N)

theorem fillRegister_width (pal : List PColor) (li : Nat) (fcol : PColor) (L : Nat)
    (hp : ∀ x ∈ pal, x.length = L) (hf : fcol.length = L) :
    ∀ x ∈ (fillRegister pal li fcol).1, x.length = L := by
  intro x hx
  unfold fillRegister at hx
  cases hfi : firstIdx fcol pal with
  | some k =>
    rw [hfi] at hx
    exact hp x hx
  | none =>
    rw [hfi] at hx
    rcases List.mem_append.mp hx with hm | hm
    · exact hp x hm
    · rw [List.mem_singleton.mp hm]
      exact hf

theorem toP_good_nonalpha (img : QImage) (m : Mode) (img2 : QImage)
    (ha : isAlpha img.mode = false) (hm : m = .P)
    (hbase : img.mode = .L ∨ img.mode = .RGB ∨ img.mode = .YCbCr)
    (hcl : img.channels.length = impliedChannels img.mode)
    (hfc : ∀ f, img.fillValue = some f → f.length = img.channels.length)
    (h : toP img m = .ok img2) : GoodImage img2 := by
  subst hm
  simp only [toP, ha, Bool.false_eq_true, ite_false] at h
  split at h
  · exact Except.noConfusion h
  split at h
  case _ hfv =>
    rw [exc_bind_ok] at h
    injection h with h2
    subst h2
    refine Or.inr ⟨?_, ?_, ?_⟩
    · simp [impliedChannels]
    · intro f hf
      exact Option.noConfusion hf
    · intro _
      refine ⟨⟨_, rfl, ?_⟩, ?_⟩
      · intro col hcol
        have hw := toPScan_width img.channels (img.height * img.width) col hcol
        show col.length = impliedChannels (baseMode img.mode)
        rw [baseMode_nonalpha img.mode ha, hw, hcl]
      · show baseMode img.mode = _ ∨ baseMode img.mode = _ ∨ baseMode img.mode = _
        rw [baseMode_nonalpha img.mode ha]
        exact hbase
  case _ f hfv =>
    rw [exc_bind_ok] at h
    dsimp only [] at h
    rw [exc_bind_ok] at h
    injection h with h2
    subst h2
    refine Or.inr ⟨?_, ?_, ?_⟩
    · simp [impliedChannels]
    · intro f2 hf2
      injection hf2 with hf2e
      rw [← hf2e]
      simp
    · intro _
      refine ⟨⟨_, rfl, ?_⟩, ?_⟩
      · intro col hcol
        have hw := fillRegister_width
          (toPScan img.channels (img.height * img.width)).1.1
          (toPScan img.channels (img.height * img.width)).1.2 (f.map some)
          img.channels.length
          (toPScan_width img.channels (img.height * img.width))
          (by rw [List.length_map]; exact hfc f hfv) col hcol
        show col.length = impliedChannels (baseMode img.mode)
        rw [baseMode_nonalpha img.mode ha, hw, hcl]
      · show baseMode img.mode = _ ∨ baseMode img.mode = _ ∨ baseMode img.mode = _
        rw [baseMode_nonalpha img.mode ha]
        exact hbase

theorem getLast?_ne_nil {α : Type} (l : List α) (h : l ≠ []) :
    ∃ a, l.getLast? = some a := by
  cases l with
  | nil => exact absurd rfl h
  | cons a t => exact ⟨(a :: t).getLast (by simp), List.getLast?_eq_getLast _ _⟩

theorem toP_good_alpha (img : QImage) (m : Mode) (img2 : QImage)
    (ha : isAlpha img.mode = true) (hm : m = .PA)
    (hbase : baseMode img.mode = .L ∨ baseMode img.mode = .RGB ∨
      baseMode img.mode = .YCbCr)
    (hb2 : impliedChannels (baseMode img.mode) + 1 = impliedChannels img.mode)
    (hcl : img.channels.length = impliedChannels img.mode)
    (hfc : ∀ f, img.fillValue = some f → f.length = img.channels.length)
    (h : toP img m = .ok img2) : GoodImage img2 := by
  subst hm
  have hne : img.channels ≠ [] := by
    intro hc
    rw [hc] at hcl
    have h1 := one_le_impliedChannels img.mode
    simp at hcl
    omega
  obtain ⟨alast, hsome⟩ := getLast?_ne_nil img.channels hne
  simp only [toP, ha, ite_true] at h
  rw [hsome] at h
  split at h
  · exact Except.noConfusion h
  split at h
  case _ hfv =>
    rw [exc_bind_ok] at h
    injection h with h2
    subst h2
    refine Or.inr ⟨?_, ?_, ?_⟩
    · simp [impliedChannels]
    · intro f hf
      exact Option.noConfusion hf
    · intro _
      refine ⟨⟨_, rfl, ?_⟩, ?_⟩
      · intro col hcol
        have hw := toPScan_width img.channels.dropLast (img.height * img.width) col hcol
        show col.length = impliedChannels (baseMode img.mode)
        rw [hw, List.length_dropLast, hcl]
        omega
      · show baseMode img.mode = _ ∨ baseMode img.mode = _ ∨ baseMode img.mode = _
        exact hbase
  case _ f hfv =>
    cases hpi : pyIntGet f (-1) with
    | error e =>
      rw [hpi] at h
      exact Except.noConfusion h
    | ok fa =>
      rw [hpi] at h
      dsimp only [Except.map] at h
      rw [exc_bind_ok] at h
      dsimp only [] at h
      rw [exc_bind_ok] at h
      injection h with h2
      subst h2
      refine Or.inr ⟨?_, ?_, ?_⟩
      · simp [impliedChannels]
      · intro f2 hf2
        injection hf2 with hf2e
        rw [← hf2e]
        simp
      · intro _
        refine ⟨⟨_, rfl, ?_⟩, ?_⟩
        · intro col hcol
          have hw := fillRegister_width
            (toPScan img.channels.dropLast (img.height * img.width)).1.1
            (toPScan img.channels.dropLast (img.height * img.width)).1.2
            (f.dropLast.map some) img.channels.dropLast.length
            (toPScan_width img.channels.dropLast (img.height * img.width))
            (by rw [List.length_map, List.length_dropLast, List.length_dropLast,
              hfc f hfv]) col hcol
          show col.length = impliedChannels (baseMode img.mode)
          rw [hw, List.length_dropLast, hcl]
          omega
        · show baseMode img.mode = _ ∨ baseMode img.mode = _ ∨ baseMode img.mode = _
          exact hbase

theorem pyGet_zero_cons {α : Type} (l : List α) (a : α) (h : pyGet l 0 = .ok a) :
    ∃ t, l = a :: t := by
  cases l with
  | nil =>
    unfold pyGet at h
    exact Except.noConfusion h
  | cons b t =>
    unfold pyGet at h
    injection h with h2
    exact ⟨t, by rw [h2]⟩

theorem fromPAux_good_step (conv : QImage → Mode → Except String QImage)
    (img : QImage) (m : Mode) (img2 : QImage)
    (hPm : img.mode = .P ∨ img.mode = .PA)
    (hpalw : ∃ pal, img.palette = some pal ∧
      ∀ col ∈ pal, col.length = impliedChannels img.secondaryMode)
    (hsec : img.secondaryMode = .L ∨ img.secondaryMode = .RGB ∨
      img.secondaryMode = .YCbCr)
    (h : fromPAux conv img m = .ok img2) :
    ∃ mid, GoodImage mid ∧ conv mid m = .ok img2 := by
  obtain ⟨pal, hpal, hw⟩ := hpalw
  unfold fromPAux at h
  rw [if_neg (not_not_intro hPm), hpal] at h
  split at h
  case _ haA =>
    cases hpa : pyIntGet img.channels (-1) with
    | error e =>
      rw [hpa] at h
      exact Except.noConfusion h
    | ok aC =>
      rw [hpa] at h
      dsimp only [Except.map] at h
      rw [exc_bind_ok] at h
      cases hcc : pyGet img.channels 0 with
      | error e =>
        rw [hcc] at h
        exact Except.noConfusion h
      | ok colorChan =>
        rw [hcc] at h
        rw [exc_bind_ok] at h
        dsimp only [] at h
        rw [exc_bind_ok] at h
        cases hp0 : pyGet pal 0 with
        | error e =>
          rw [hp0] at h
          exact Except.noConfusion h
        | ok p0 =>
          rw [hp0] at h
          rw [exc_bind_ok] at h
          obtain ⟨ptail, hpal0⟩ := pyGet_zero_cons pal p0 hp0
          have hp0w : p0.length = impliedChannels img.secondaryMode :=
            hw p0 (by rw [hpal0]; exact List.mem_cons_self _ _)
          split at h
          · exact Except.noConfusion h
          cases hfv : img.fillValue with
          | some f =>
            rw [hfv] at h
            dsimp only [] at h
            cases hfa : pyIntGet f (-1) with
            | error e =>
              rw [hfa] at h
              exact Except.noConfusion h
            | ok fa =>
              rw [hfa, exc_bind_ok] at h
              cases hf0 : pyGet f 0 with
              | error e =>
                rw [hf0] at h
                exact Except.noConfusion h
              | ok f0 =>
                rw [hf0, exc_bind_ok] at h
                cases hent : pyIntGet pal (ratTruncZ f0) with
                | error e =>
                  rw [hent] at h
                  exact Except.noConfusion h
                | ok ent =>
                  rw [hent] at h
                  dsimp only [] at h
                  rw [exc_bind_ok] at h
                  cases haa : addAlphaM img.secondaryMode with
                  | none =>
                    exfalso
                    rcases hsec with hs | hs | hs <;> rw [hs] at haa <;>
                      exact Option.noConfusion haa
                  | some ma =>
                    rw [haa] at h
                    dsimp only [] at h
                    rw [exc_bind_ok] at h
                    obtain ⟨_, _, hmaA, _, hmai, hmab⟩ := addAlphaM_spec haa
                    have hentw : ent.length = impliedChannels img.secondaryMode :=
                      hw ent (pyIntGet_ok pal (ratTruncZ f0) ent hent)
                    refine ⟨_, Or.inr ⟨?_, ?_, ?_⟩, h⟩
                    · simp only [fromPChans, hpal0]
                      simp [hp0w, hmai]
                    · intro f2 hf2
                      injection hf2 with hf2e
                      rw [← hf2e]
                      simp only [fromPChans, hpal0]
                      simp [hentw, hp0w]
                    · intro hP
                      rcases hP with hp | hp
                      · have hp2 : ma = Mode.P := hp
                        rw [hp2] at hmaA
                        exact Bool.noConfusion hmaA
                      · have hp2 : ma = Mode.PA := hp
                        rw [hp2] at hmab
                        rcases hsec with hs | hs | hs <;> rw [hs] at hmab <;>
                          exact Mode.noConfusion hmab
          | none =>
            rw [hfv] at h
            dsimp only [] at h
            rw [exc_bind_ok] at h
            cases haa : addAlphaM img.secondaryMode with
            | none =>
              exfalso
              rcases hsec with hs | hs | hs <;> rw [hs] at haa <;>
                exact Option.noConfusion haa
            | some ma =>
              rw [haa] at h
              dsimp only [] at h
              rw [exc_bind_ok] at h
              obtain ⟨_, _, hmaA, _, hmai, hmab⟩ := addAlphaM_spec haa
              refine ⟨_, Or.inr ⟨?_, ?_, ?_⟩, h⟩
              · simp only [fromPChans, hpal0]
                simp [hp0w, hmai]
              · intro f2 hf2
                exact Option.noConfusion hf2
              · intro hP
                rcases hP with hp | hp
                · have hp2 : ma = Mode.P := hp
                  rw [hp2] at hmaA
                  exact Bool.noConfusion hmaA
                · have hp2 : ma = Mode.PA := hp
                  rw [hp2] at hmab
                  rcases hsec with hs | hs | hs <;> rw [hs] at hmab <;>
                    exact Mode.noConfusion hmab
  case _ haA =>
    rw [exc_bind_ok] at h
    cases hcc : pyGet img.channels 0 with
    | error e =>
      rw [hcc] at h
      exact Except.noConfusion h
    | ok colorChan =>
      rw [hcc] at h
      rw [exc_bind_ok] at h
      dsimp only [] at h
      rw [exc_bind_ok] at h
      cases hp0 : pyGet pal 0 with
      | error e =>
        rw [hp0] at h
        exact Except.noConfusion h
      | ok p0 =>
        rw [hp0] at h
        rw [exc_bind_ok] at h
        obtain ⟨ptail, hpal0⟩ := pyGet_zero_cons pal p0 hp0
        have hp0w : p0.length = impliedChannels img.secondaryMode :=
          hw p0 (by rw [hpal0]; exact List.mem_cons_self _ _)
        split at h
        · exact Except.noConfusion h
        cases hfv : img.fillValue with
        | some f =>
          rw [hfv] at h
          dsimp only [] at h
          cases hf0 : pyGet f 0 with
          | error e =>
            rw [hf0] at h
            exact Except.noConfusion h
          | ok f0 =>
            rw [hf0, exc_bind_ok] at h
            cases hent : pyIntGet pal (ratTruncZ f0) with
            | error e =>
              rw [hent] at h
              exact Except.noConfusion h
            | ok ent =>
              rw [hent] at h
              dsimp only [Except.map] at h
              rw [exc_bind_ok] at h
              rw [exc_bind_ok] at h
              have hentw : ent.length = impliedChannels img.secondaryMode :=
                hw ent (pyIntGet_ok pal (ratTruncZ f0) ent hent)
              refine ⟨_, Or.inr ⟨?_, ?_, ?_⟩, h⟩
              · simp only [fromPChans, hpal0]
                simp [hp0w]
              · intro f2 hf2
                injection hf2 with hf2e
                rw [← hf2e]
                simp only [fromPChans, hpal0]
                simp [hentw, hp0w]
              · intro hP
                have hp2 : img.secondaryMode = Mode.P ∨ img.secondaryMode = Mode.PA := hP
                rcases hp2 with hp | hp <;>
                  (rcases hsec with hs | hs | hs <;> rw [hs] at hp <;>
                    exact Mode.noConfusion hp)
        | none =>
          rw [hfv] at h
          dsimp only [] at h
          rw [exc_bind_ok] at h
          rw [exc_bind_ok] at h
          refine ⟨_, Or.inr ⟨?_, ?_, ?_⟩, h⟩
          · simp only [fromPChans, hpal0]
            simp [hp0w]
          · intro f2 hf2
            exact Option.noConfusion hf2
          · intro hP
            have hp2 : img.secondaryMode = Mode.P ∨ img.secondaryMode = Mode.PA := hP
            rcases hp2 with hp | hp <;>
              (rcases hsec with hs | hs | hs <;> rw [hs] at hp <;>
                exact Mode.noConfusion hp)

theorem convertF_good : ∀ (fuel : Nat) (img : QImage) (m : Mode) (img2 : QImage),
    GoodImage img → convertF fuel img m = .ok img2 → GoodImage img2 := by
  intro fuel
  induction fuel with
  | zero =>
    intro img m img2 _ h
    exact Except.noConfusion h
  | succ n ih =>
    intro img m img2 hg h
    rw [convertF_succ] at h
    unfold convertBody at h
    split at h
    case _ hmm =>
      injection h with h2
      subst h2
      exact hg
    case _ hmm =>
      cases he : isEmptyChk img with
      | error e =>
        rw [he] at h
        exact Except.noConfusion h
      | ok e =>
        rw [he, exc_bind_ok] at h
        split at h
        case _ het =>
          injection h with h2
          subst h2
          rw [het] at he
          obtain ⟨hc, hh, hw2⟩ := isEmptyChk_ok_true img he
          exact Or.inl ⟨hc, hh, hw2⟩
        case _ hef =>
          have hef2 : e = false := by
            cases e
            · rfl
            · exact absurd rfl hef
          rw [hef2] at he
          have hcne : img.channels ≠ [] := isEmptyChk_ok_false img he
          rcases hg with ⟨hc0, _, _⟩ | ⟨hcl, hfc, hPcl⟩
          · exact absurd hc0 hcne
          split at h
          case _ hadd =>
            split at h
            · exact Except.noConfusion h
            case _ c crest hceq =>
              injection h with h2
              subst h2
              obtain ⟨hne, hnal, hmal, _, hmi, hmb⟩ := addAlphaM_spec hadd.symm
              refine Or.inr ⟨?_, ?_, ?_⟩
              · simp only [List.length_append, List.length_cons, List.length_nil]
                rw [hmi]
                omega
              · intro f2 hf2
                cases hfv : img.fillValue with
                | none =>
                  rw [hfv] at hf2
                  exact Option.noConfusion hf2
                | some f =>
                  rw [hfv] at hf2
                  injection hf2 with hf2e
                  rw [← hf2e]
                  simp only [List.length_append, List.length_cons, List.length_nil]
                  have := hfc f hfv
                  omega
              · intro hP
                rcases hP with hp | hp
                · have hp2 : m = Mode.P := hp
                  rw [hp2] at hmal
                  exact Bool.noConfusion hmal
                · have hp2 : m = Mode.PA := hp
                  rw [hp2] at hmb
                  have himgP : img.mode = Mode.P := hmb.symm
                  exact hPcl (Or.inl himgP)
          case _ hnadd =>
            split at h
            case _ hdrop =>
              injection h with h2
              subst h2
              obtain ⟨hne, hmal, hnal, _, hmi, hmb⟩ := addAlphaM_spec hdrop
              refine Or.inr ⟨?_, ?_, ?_⟩
              · simp only [List.length_dropLast]
                omega
              · intro f2 hf2
                cases hfv : img.fillValue with
                | none =>
                  rw [hfv] at hf2
                  exact Option.noConfusion hf2
                | some f =>
                  rw [hfv] at hf2
                  injection hf2 with hf2e
                  rw [← hf2e]
                  simp only [List.length_dropLast]
                  have := hfc f hfv
                  omega
              · intro hP
                rcases hP with hp | hp
                · have hp2 : m = Mode.P := hp
                  rw [hp2] at hmb
                  have hPA : img.mode = Mode.PA := by
                    cases hmode : img.mode <;> rw [hmode] at hmb hnal <;>
                      first
                      | rfl
                      | exact Mode.noConfusion hmb
                      | exact Bool.noConfusion hnal
                  exact hPcl (Or.inr hPA)
                · have hp2 : m = Mode.PA := hp
                  rw [hp2] at hdrop
                  exact Option.noConfusion hdrop
            case _ hndrop =>
              split at h
              case _ hup =>
                cases haa : addAlphaM img.mode with
                | none =>
                  rw [haa] at h
                  exact Except.noConfusion h
                | some ma =>
                  rw [haa] at h
                  dsimp only [] at h
                  cases hi1 : convertF n img ma with
                  | error e2 =>
                    rw [hi1] at h
                    exact Except.noConfusion h
                  | ok i1 =>
                    rw [hi1, exc_bind_ok] at h
                    exact ih i1 m img2 (ih img ma i1 (Or.inr ⟨hcl, hfc, hPcl⟩) hi1) h
              case _ hnup =>
                split at h
                case _ hdown =>
                  cases hi1 : convertF n img (baseMode img.mode) with
                  | error e2 =>
                    rw [hi1] at h
                    exact Except.noConfusion h
                  | ok i1 =>
                    rw [hi1, exc_bind_ok] at h
                    exact ih i1 m img2
                      (ih img (baseMode img.mode) i1 (Or.inr ⟨hcl, hfc, hPcl⟩) hi1) h
                case _ hndown =>
                  unfold tableDispatch at h
                  cases himg : img.mode <;> rw [himg] at h <;> cases m <;>
                    first
                    | exact Except.noConfusion h
                    | exact rgb2ycbcrIm_good img _ img2 (by rw [himg]; decide) (by decide)
                        (by decide) hcl hfc h
                    | exact ycbcr2rgbIm_good img _ img2 (by rw [himg]; decide) (by decide)
                        (by decide) hcl hfc h
                    | exact rgb2lIm_good img _ img2 (by rw [himg]; decide) (by decide)
                        (by decide) hcl hfc h
                    | exact ycbcr2lIm_good img _ img2 (by rw [himg]; decide) (by decide)
                        (by decide) hcl hfc h
                    | exact l2ycbcrIm_good img _ img2 (by rw [himg]; decide) (by decide)
                        (by decide) hcl hfc h
                    | exact l2rgbIm_good img _ img2 (by rw [himg]; decide) (by decide)
                        (by decide) hcl hfc h
                    | exact toP_good_nonalpha img _ img2 (by rw [himg]; decide) rfl
                        (Or.inl himg) hcl hfc h
                    | exact toP_good_nonalpha img _ img2 (by rw [himg]; decide) rfl
                        (Or.inr (Or.inl himg)) hcl hfc h
                    | exact toP_good_nonalpha img _ img2 (by rw [himg]; decide) rfl
                        (Or.inr (Or.inr himg)) hcl hfc h
                    | exact toP_good_alpha img _ img2 (by rw [himg]; decide) rfl
                        (by rw [himg]; exact Or.inl rfl) (by rw [himg]; decide) hcl hfc h
                    | exact toP_good_alpha img _ img2 (by rw [himg]; decide) rfl
                        (by rw [himg]; exact Or.inr (Or.inl rfl)) (by rw [himg]; decide)
                        hcl hfc h
                    | exact toP_good_alpha img _ img2 (by rw [himg]; decide) rfl
                        (by rw [himg]; exact Or.inr (Or.inr rfl)) (by rw [himg]; decide)
                        hcl hfc h
                    | exact Exists.elim (fromPAux_good_step (convertF n) img _ img2
                        (Or.inl himg) (hPcl (Or.inl himg)).1 (hPcl (Or.inl himg)).2 h)
                        (fun mid pr => ih mid _ img2 pr.1 pr.2)
                    | exact Exists.elim (fromPAux_good_step (convertF n) img _ img2
                        (Or.inr himg) (hPcl (Or.inr himg)).1 (hPcl (Or.inr himg)).2 h)
                        (fun mid pr => ih mid _ img2 pr.1 pr.2)

/-- C6 counterexample: the single-array constructor path performs no
channel-count check at all — a single 2-D array accepted under mode RGB
yields an image with one channel where the mode implies three, so
construction alone does not establish the claimed invariant. -/
theorem C6_init_single_counterexample :
    imageInit (.single 1 1 [⟨1, false⟩]) .RGB none none =
      .ok ⟨.RGB, [[⟨1, false⟩]], 1, 1, none, none, .RGB⟩ ∧
    ¬ GoodImage ⟨.RGB, [[⟨1, false⟩]], 1, 1, none, none, .RGB⟩ := by
  refine ⟨rfl, ?_⟩
  intro hG
  rcases hG with ⟨h1, _, _⟩ | ⟨h1, _, _⟩
  · exact List.cons_ne_nil _ _ h1
  · simp [impliedChannels] at h1

/-- C6 (amended): the channel-count check happens only on the
sequence-of-arrays constructor path — there a successful construction forces
the array count to equal the mode's channel count; the single-array path is
unchecked (see the counterexample) and the fill value length is never
checked at construction.  For images satisfying the invariant (channel count
matches the mode, fill value in lockstep, and indexed modes carrying a
palette of secondary-mode width), every successful convert call preserves
the invariant. -/
theorem C6_invariant :
    (∀ (arrs : List (Nat × Nat × MChan)) (mode : Mode) (fill : Option (List ℚ))
      (pal : Option (List PColor)) (img : QImage),
      imageInit (.seq arrs) mode fill pal = .ok img →
      arrs.length = impliedChannels mode ∧
      img.channels.length = impliedChannels mode) ∧
    (∀ (img : QImage) (m : Mode) (img2 : QImage),
      GoodImage img → convert img m = .ok img2 → GoodImage img2) := by
  constructor
  · intro arrs mode fill pal img h
    simp only [imageInit] at h
    split at h
    · exact Except.noConfusion h
    case _ hlen =>
      have hl : arrs.length = impliedChannels mode := not_not.mp hlen
      refine ⟨hl, ?_⟩
      split at h
      · injection h with h2
        rw [← h2]
        simpa using hl
      · split at h
        · injection h with h2
          rw [← h2]
          simpa using hl
        · exact Except.noConfusion h
  · intro img m img2 hg h
    exact convertF_good 10 img m img2 hg h

/-- Witness for C6: a concrete three-array RGB construction passes the
sequence-path check, the constructed image satisfies the invariant, and a
successful convert (adding an alpha channel) preserves it. -/
theorem C6_invariant_witness :
    imageInit (.seq [(1, 1, [⟨2, false⟩]), (1, 1, [⟨3, false⟩]),
        (1, 1, [⟨4, false⟩])]) .RGB (some [1, 2, 3]) none =
      .ok ⟨.RGB, [[⟨2, false⟩], [⟨3, false⟩], [⟨4, false⟩]], 1, 1,
        some [1, 2, 3], none, .RGB⟩ ∧
    ([(1, 1, [⟨2, false⟩]), (1, 1, [⟨3, false⟩]), (1, 1, [⟨4, false⟩])] :
      List (Nat × Nat × MChan)).length = impliedChannels .RGB ∧
    GoodImage ⟨.RGB, [[⟨2, false⟩], [⟨3, false⟩], [⟨4, false⟩]], 1, 1,
      some [1, 2, 3], none, .RGB⟩ ∧
    convert ⟨.RGB, [[⟨2, false⟩], [⟨3, false⟩], [⟨4, false⟩]], 1, 1,
        some [1, 2, 3], none, .RGB⟩ .RGBA =
      .ok ⟨.RGBA, [[⟨2, false⟩], [⟨3, false⟩], [⟨4, false⟩], [⟨1, false⟩]], 1, 1,
        some [1, 2, 3, 1], none, .RGB⟩ ∧
    GoodImage ⟨.RGBA, [[⟨2, false⟩], [⟨3, false⟩], [⟨4, false⟩], [⟨1, false⟩]],
      1, 1, some [1, 2, 3, 1], none, .RGB⟩ := by
  have hG : GoodImage ⟨.RGB, [[⟨2, false⟩], [⟨3, false⟩], [⟨4, false⟩]], 1, 1,
      some [1, 2, 3], none, .RGB⟩ := by
    refine Or.inr ⟨by decide, ?_, ?_⟩
    · intro f hf
      injection hf with h2
      rw [← h2]
      rfl
    · intro hP
      rcases hP with hp | hp <;> exact Mode.noConfusion hp
  refine ⟨rfl, ?_, hG, rfl, ?_⟩
  · exact (C6_invariant.1 [(1, 1, [⟨2, false⟩]), (1, 1, [⟨3, false⟩]),
      (1, 1, [⟨4, false⟩])] .RGB (some [1, 2, 3]) none
      ⟨.RGB, [[⟨2, false⟩], [⟨3, false⟩], [⟨4, false⟩]], 1, 1,
        some [1, 2, 3], none, .RGB⟩ rfl).1
  · exact C6_invariant.2 ⟨.RGB, [[⟨2, false⟩], [⟨3, false⟩], [⟨4, false⟩]], 1, 1,
      some [1, 2, 3], none, .RGB⟩ .RGBA
      ⟨.RGBA, [[⟨2, false⟩], [⟨3, false⟩], [⟨4, false⟩], [⟨1, false⟩]], 1, 1,
        some [1, 2, 3, 1], none, .RGB⟩ hG rfl

end Trollimage
